import Mathlib

/-!
Verification of the ttk fTRGraph dynamic forest (DynamicGraph.h) and the
FTRGraph driver interface (FTRGraph.h) against their natural-language
specification.

The dynamic forest is an array of parent-pointer tree nodes
(std::vector<DynGraphNode<Type>>), instantiated at Type = idVertex (int) by
FTRGraph.  We embed the node array as a list of records, an id being an index
into the list.  The bodies of the recursive tree operations (findRoot, evert,
findMinWeightRoot, insertEdge, removeEdge) live in DynamicGraph_Template.h,
which is not among the sources; those operations are modelled from the spec,
as indicated on each definition.  Path walks use explicit fuel (the number of
nodes of the forest), which is justified under the forest well-formedness
invariant proved to be preserved by every operation.
-/

namespace ttk
namespace ftr

/-- Sentinel arc id used by the default constructor of DynGraphNode
(nullSuperArc in DataTypesFTR.h); its concrete value is irrelevant here. -/
def nullSuperArc : Nat := 4294967295

/-- Mirror of struct DynGraphNode (DynamicGraph.h): a tree node holding the
link to its parent (absent for a root), the weight of the edge to its parent,
its number of children and the output-arc id it carries while it is a root.
The template parameter Type is instantiated at idVertex (an int) by FTRGraph,
so the weight is an Int; the parent pointer becomes the parent's index. -/
structure DynGraphNode where
  parent_   : Option Nat
  weight_   : Int
  nbChilds_ : Nat
  corArc_   : Nat
deriving DecidableEq, Repr

/-- Default constructor of DynGraphNode: no parent, weight 0, no child,
corArc_ = nullSuperArc. -/
instance : Inhabited DynGraphNode :=
  ⟨⟨none, 0, 0, nullSuperArc⟩⟩

/-- Accessor hasParent (DynamicGraph.h): the C++ body returns the raw
pointer parent_, converted to bool. -/
def DynGraphNode.hasParent (nd : DynGraphNode) : Bool :=
  nd.parent_.isSome

/-- Accessor getWeight (DynamicGraph.h). -/
def DynGraphNode.getWeight (nd : DynGraphNode) : Int :=
  nd.weight_

/-- Accessor getNbChilds (DynamicGraph.h). -/
def DynGraphNode.getNbChilds (nd : DynGraphNode) : Nat :=
  nd.nbChilds_

/-- Copy assignment operator of DynGraphNode (DynamicGraph.h): copies
parent_, weight_ and nbChilds_ from the source into the target and leaves
the target's corArc_ untouched. -/
def DynGraphNode.copyAssign (target source : DynGraphNode) : DynGraphNode :=
  { target with
    parent_   := source.parent_
    weight_   := source.weight_
    nbChilds_ := source.nbChilds_ }

/-- Copy constructor of DynGraphNode (DynamicGraph.h): delegates to the copy
assignment operator.  The members of the node under construction are not
initialised before the delegation, so the indeterminate initial contents of
the new node are taken here as an explicit argument. -/
def DynGraphNode.copyConstruct (uninit source : DynGraphNode) : DynGraphNode :=
  DynGraphNode.copyAssign uninit source

/-- Mirror of class DynamicGraph (DynamicGraph.h): the forest is the array
std::vector<DynGraphNode<Type>> nodes_, owning one node per mesh vertex. -/
structure DynamicGraph where
  nodes_ : List DynGraphNode
deriving DecidableEq, Repr

/-- Number of nodes of the forest (the size the vector was allocated to). -/
def DynamicGraph.n (g : DynamicGraph) : Nat :=
  g.nodes_.length

/-- Mirror of getNode (DynamicGraph.h): access to the node of id nid.  Out of
range access is undefined behaviour in the C++ code; it is totalised with the
default node, which is what alloc() had stored there anyway. -/
def DynamicGraph.node (g : DynamicGraph) (nid : Nat) : DynGraphNode :=
  g.nodes_.getD nid default

/-- Mirror of alloc() (declared in DynamicGraph.h, body in the missing
template file).  Modelled from the spec: the node array is allocated once,
sized to the mesh vertex count, every node default-constructed. -/
def initDG (nbNodes : Nat) : DynamicGraph :=
  ⟨List.replicate nbNodes default⟩

/-- Mirror of isDisconnected (DynamicGraph.h): the body is
!getNode(nid)->hasParent(). -/
def DynamicGraph.isDisconnected (g : DynamicGraph) (nid : Nat) : Bool :=
  !(g.node nid).hasParent

/-- Update of one node of the array (nodes_[i] = f(nodes_[i])); a no-op when
i is out of range, matching the fact that the C++ code never writes there. -/
def upd (g : DynamicGraph) (i : Nat) (f : DynGraphNode → DynGraphNode) :
    DynamicGraph :=
  ⟨g.nodes_.set i (f (g.node i))⟩

/-- Overwrite the parent link of node i. -/
def setParent (g : DynamicGraph) (i : Nat) (p : Option Nat) : DynamicGraph :=
  upd g i fun nd => { nd with parent_ := p }

/-- Overwrite the weight of node i. -/
def setWeight (g : DynamicGraph) (i : Nat) (w : Int) : DynamicGraph :=
  upd g i fun nd => { nd with weight_ := w }

/-- Increment the child counter of node i. -/
def addChild (g : DynamicGraph) (i : Nat) : DynamicGraph :=
  upd g i fun nd => { nd with nbChilds_ := nd.nbChilds_ + 1 }

/-- Decrement the child counter of node i. -/
def subChild (g : DynamicGraph) (i : Nat) : DynamicGraph :=
  upd g i fun nd => { nd with nbChilds_ := nd.nbChilds_ - 1 }

/-- Fuel-indexed parent walk underlying findRoot. -/
def findRootAux (g : DynamicGraph) : Nat → Nat → Nat
  | 0, i => i
  | fuel + 1, i =>
    match (g.node i).parent_ with
    | none => i
    | some p => findRootAux g fuel p

/-- Modelled from the spec: the body of DynGraphNode::findRoot lives in
DynamicGraph_Template.h, absent from the sources; the spec says it follows
parent links to the node with no parent.  The walk is given fuel n, enough
to reach the root of any well-formed forest on n nodes. -/
def DynamicGraph.findRoot (g : DynamicGraph) (i : Nat) : Nat :=
  findRootAux g g.n i

/-- Fuel-indexed list of the nodes visited by the parent walk started at i,
the starting node included. -/
def pathToRootAux (g : DynamicGraph) : Nat → Nat → List Nat
  | 0, i => [i]
  | fuel + 1, i =>
    match (g.node i).parent_ with
    | none => [i]
    | some p => i :: pathToRootAux g fuel p

/-- Nodes on the parent-pointer path from i to its root, i first. -/
def DynamicGraph.pathToRoot (g : DynamicGraph) (i : Nat) : List Nat :=
  pathToRootAux g g.n i

/-- Fuel-indexed number of parent links crossed by the walk started at i. -/
def stepsAux (g : DynamicGraph) : Nat → Nat → Nat
  | 0, _ => 0
  | fuel + 1, i =>
    match (g.node i).parent_ with
    | none => 0
    | some p => stepsAux g fuel p + 1

/-- The walk of the given fuel started at i ends on a true root. -/
def Reaches (g : DynamicGraph) (fuel i : Nat) : Prop :=
  (g.node (findRootAux g fuel i)).parent_ = none

instance (g : DynamicGraph) (fuel i : Nat) : Decidable (Reaches g fuel i) :=
  inferInstanceAs (Decidable (_ = _))

/-- Forest well-formedness: parent links stay inside the array and every
node reaches a true root within fuel n (hence the parent relation is
acyclic).  This is the invariant stated by the spec: at all times the parent
relation forms a forest. -/
structure WF (g : DynamicGraph) : Prop where
  bounded : ∀ i p, (g.node i).parent_ = some p → p < g.n
  reaches : ∀ i, Reaches g g.n i

/-- Reversal of the parent links along a list of nodes: each node of the
list gets the preceding one (prev before the head) as its new parent. -/
def reverseAlong (g : DynamicGraph) : Nat → List Nat → DynamicGraph
  | _, [] => g
  | prev, x :: xs => reverseAlong (setParent g x (some prev)) x xs

/-- Modelled from the spec: the body of DynGraphNode::evert lives in
DynamicGraph_Template.h, absent from the sources; the spec says evert
reverses the parent-pointer path from the node to its current root, making
the node the new root of its tree, and redistributes childCount along the
path (the new root gains the reversed link as a child, the old root loses
one). -/
def DynamicGraph.evert (g : DynamicGraph) (i : Nat) : DynamicGraph :=
  match g.pathToRoot i with
  | [] => g
  | [_] => g
  | x :: xs =>
    let g1 := reverseAlong (setParent g x none) x xs
    subChild (addChild g1 x) ((x :: xs).getLastD x)

/-- Fuel-indexed walk to the root keeping track of the node of minimal
weight met so far (m is the current minimum). -/
def findMinWeightRootAux (g : DynamicGraph) : Nat → Nat → Nat → Nat × Nat
  | 0, i, m => (i, m)
  | fuel + 1, i, m =>
    match (g.node i).parent_ with
    | none => (i, m)
    | some p =>
      findMinWeightRootAux g fuel p
        (if (g.node p).weight_ < (g.node m).weight_ then p else m)

/-- Modelled from the spec: the body of DynGraphNode::findMinWeightRoot
lives in DynamicGraph_Template.h, absent from the sources; the spec says it
walks from the node to its root and returns both the root and whichever node
on that path carries the smallest weight. -/
def DynamicGraph.findMinWeightRoot (g : DynamicGraph) (i : Nat) : Nat × Nat :=
  findMinWeightRootAux g g.n i i

/-- Surviving root of a merge, per the spec: the root whose subtree has the
larger childCount, ties broken in favour of the root with the lower
weight. -/
def survivorIsFirst (g : DynamicGraph) (r1 r2 : Nat) : Prop :=
  (g.node r2).nbChilds_ < (g.node r1).nbChilds_ ∨
    ((g.node r1).nbChilds_ = (g.node r2).nbChilds_ ∧
      (g.node r1).weight_ < (g.node r2).weight_)

instance (g : DynamicGraph) (r1 r2 : Nat) :
    Decidable (survivorIsFirst g r1 r2) :=
  inferInstanceAs (Decidable (_ ∨ _))

/-- Hang the root child under par with edge weight w (child is assumed to be
the root of its tree): the merge step of insertEdge. -/
def attach (g : DynamicGraph) (child par : Nat) (w : Int) : DynamicGraph :=
  addChild (setWeight (setParent g child (some par)) child w) par

/-- Modelled from the spec: the body of DynGraphNode::insertEdge lives in
DynamicGraph_Template.h, absent from the sources.  Per the spec: if the two
nodes are already in the same tree the edge's weight is recorded as an
intra-tree update (here on n1) and false is returned, with no topology
change; otherwise the trees are merged, true is returned, and the side whose
root loses the childCount/weight comparison is everted and hung under the
other node, so the winning root survives. -/
def DynamicGraph.insertEdge (g : DynamicGraph) (n1 n2 : Nat) (w : Int) :
    Bool × DynamicGraph :=
  let r1 := g.findRoot n1
  let r2 := g.findRoot n2
  if r1 = r2 then
    (false, setWeight g n1 w)
  else if survivorIsFirst g r1 r2 then
    (true, attach (g.evert n2) n2 n1 w)
  else
    (true, attach (g.evert n1) n1 n2 w)

/-- Detach node i from its parent, decrementing the parent's child counter
(assumes (g.node i).parent_ = some p). -/
def detach (g : DynamicGraph) (i p : Nat) : DynamicGraph :=
  subChild (setParent g i none) p

/-- Modelled from the spec: the body of DynGraphNode::removeEdge lives in
DynamicGraph_Template.h, absent from the sources; the spec says it detaches
the node from its parent, demoting it to being its own root, and that
removing a node that is already a root is simply ignored. -/
def DynamicGraph.removeEdgeSingle (g : DynamicGraph) (i : Nat) : DynamicGraph :=
  match (g.node i).parent_ with
  | none => g
  | some p => detach g i p

/-- Modelled from the spec: the body of DynamicGraph::removeEdge(n1, n2)
lives in DynamicGraph_Template.h, absent from the sources; the spec says it
only removes the edge if n1/n2 are in a direct parent-child relation, and
otherwise returns the not-found indicator 0 without altering the
structure. -/
def DynamicGraph.removeEdgePair (g : DynamicGraph) (n1 n2 : Nat) :
    Int × DynamicGraph :=
  if (g.node n1).parent_ = some n2 then (1, detach g n1 n2)
  else if (g.node n2).parent_ = some n1 then (1, detach g n2 n1)
  else (0, g)

/-- Undirected tree-edge relation of the forest: i and j are linked by one
parent pointer. -/
def TreeEdge (g : DynamicGraph) (i j : Nat) : Prop :=
  (g.node i).parent_ = some j ∨ (g.node j).parent_ = some i

instance (g : DynamicGraph) (i j : Nat) : Decidable (TreeEdge g i j) :=
  inferInstanceAs (Decidable (_ ∨ _))

/-- One call of the access pattern the spec quantifies over: an insertEdge or
a removeEdge on a pair of node ids. -/
inductive DynOp where
  | ins (a b : Nat) (w : Int)
  | rmv (a b : Nat)
deriving DecidableEq, Repr

/-- Effect of one call on the forest (the returned indicator is dropped). -/
def stepOp (g : DynamicGraph) : DynOp → DynamicGraph
  | .ins a b w => (g.insertEdge a b w).2
  | .rmv a b => (g.removeEdgePair a b).2

/-- Forest obtained by running a sequence of calls. -/
def execOps (g : DynamicGraph) : List DynOp → DynamicGraph
  | [] => g
  | op :: ops => execOps (stepOp g op) ops

/-- Reference bookkeeping of the currently-inserted edges: insertEdge adds
the pair, removeEdge deletes it in both orientations. -/
def edgeStep (es : List (Nat × Nat)) : DynOp → List (Nat × Nat)
  | .ins a b _ => (a, b) :: es
  | .rmv a b => es.filter fun e => decide (e ≠ (a, b) ∧ e ≠ (b, a))

/-- Edge list after running a whole call sequence. -/
def edgesAfter : List DynOp → List (Nat × Nat) → List (Nat × Nat)
  | [], es => es
  | op :: ops, es => edgesAfter ops (edgeStep es op)

/-- Membership of the unordered pair i j in an edge list. -/
def PairIn (es : List (Nat × Nat)) (i j : Nat) : Prop :=
  (i, j) ∈ es ∨ (j, i) ∈ es

/-- Brute-force reference connectivity: i and j are joined by a path of
edges of the list. -/
def Connected (es : List (Nat × Nat)) (i j : Nat) : Prop :=
  Relation.ReflTransGen (PairIn es) i j

/-- Bounds check for a call sequence: every mentioned id is an index of the
node array. -/
def inBoundsB (nb : Nat) : List DynOp → Bool
  | [] => true
  | .ins a b _ :: ops => decide (a < nb) && decide (b < nb) && inBoundsB nb ops
  | .rmv a b :: ops => decide (a < nb) && decide (b < nb) && inBoundsB nb ops

/-- Chord-freeness of a call sequence: no insertEdge call falls on a pair of
nodes that are already in the same tree at that moment. -/
def noChordB (g : DynamicGraph) : List DynOp → Bool
  | [] => true
  | op :: ops =>
    (match op with
     | .ins a b _ => decide (g.findRoot a ≠ g.findRoot b)
     | .rmv _ _ => true) &&
    noChordB (stepOp g op) ops

/-- Executable forest well-formedness check, restricted to the node range;
it implies WF (see wf_of_check). -/
def wfCheck (g : DynamicGraph) : Bool :=
  decide (∀ i < g.n, ∀ p, (g.node i).parent_ = some p → p < g.n) &&
    decide (∀ i < g.n, Reaches g g.n i)

/-- Mirror of the external ttk::Triangulation as far as FTRGraph.h touches
it: the four adjacency preprocessing flags set by setupTriangulation. -/
structure TriangulationState where
  vertexNeighbors : Bool
  vertexTriangles : Bool
  triangleEdges   : Bool
  edgeTriangles   : Bool
deriving DecidableEq, Repr

/-- State of an FTRGraph object as far as setupTriangulation touches it: the
mesh_ pointer (None models nullptr). -/
structure FTRGraphState where
  mesh_ : Option TriangulationState
deriving DecidableEq, Repr

/-- Mirror of FTRGraph::setupTriangulation (FTRGraph.h lines 102-114): it
stores the triangulation pointer, runs the four preprocess calls when the
pointer is non-null, and returns 0 — on every path, including a null
triangulation. -/
def setupTriangulation (_s : FTRGraphState) (t : Option TriangulationState) :
    Int × FTRGraphState :=
  match t with
  | none => (0, ⟨none⟩)
  | some tri =>
    (0, ⟨some { tri with
      vertexNeighbors := true
      vertexTriangles := true
      triangleEdges := true
      edgeTriangles := true }⟩)

/-- Concrete call sequence exhibiting a chord: the third insertEdge falls on
an already-connected pair, so the forest drops it while the reference edge
list keeps it. -/
def cexOps : List DynOp :=
  [.ins 0 1 0, .ins 1 2 0, .ins 0 2 5, .rmv 0 1]

/-- Forest reached by the chord sequence on three nodes. -/
def cexG : DynamicGraph :=
  execOps (initDG 3) cexOps

/-- Concrete chord-free call sequence used by witnesses. -/
def witOps : List DynOp :=
  [.ins 0 1 0, .ins 1 2 0, .rmv 0 1]

/-- Concrete two-node forest whose node 1 hangs under root 0. -/
def twoNodeG : DynamicGraph :=
  ⟨[⟨none, 0, 1, nullSuperArc⟩, ⟨some 0, 3, 0, nullSuperArc⟩]⟩

/-- Concrete five-node forest: a path 2 → 1 → 0 (root) with weights 0, 5, 2
kept on the children, plus the separate tree 4 → 3. -/
def fiveNodeG : DynamicGraph :=
  ⟨[⟨none, 0, 1, nullSuperArc⟩,
    ⟨some 0, 5, 1, nullSuperArc⟩,
    ⟨some 1, 2, 0, nullSuperArc⟩,
    ⟨none, 0, 1, nullSuperArc⟩,
    ⟨some 3, 7, 0, nullSuperArc⟩]⟩

/-! Basic facts about the node array and its pointwise updates. -/

theorem n_upd (g : DynamicGraph) (i : Nat) (f : DynGraphNode → DynGraphNode) :
    (upd g i f).n = g.n := by
  simp [upd, DynamicGraph.n, List.length_set]

theorem node_out_of_range (g : DynamicGraph) {i : Nat} (h : g.n ≤ i) :
    g.node i = default :=
  List.getD_eq_default _ _ h

theorem node_upd_self (g : DynamicGraph) {i : Nat}
    (f : DynGraphNode → DynGraphNode) (h : i < g.n) :
    (upd g i f).node i = f (g.node i) := by
  simp [upd, DynamicGraph.node, List.getD_eq_getElem?_getD,
    List.getElem?_set_self h]

theorem node_upd_ne (g : DynamicGraph) {i j : Nat}
    (f : DynGraphNode → DynGraphNode) (h : j ≠ i) :
    (upd g i f).node j = g.node j := by
  simp [upd, DynamicGraph.node, List.getD_eq_getElem?_getD,
    List.getElem?_set_ne (Ne.symm h)]

theorem node_upd (g : DynamicGraph) {i : Nat} (j : Nat)
    (f : DynGraphNode → DynGraphNode) (h : i < g.n) :
    (upd g i f).node j = if j = i then f (g.node i) else g.node j := by
  by_cases hj : j = i
  · subst hj; simp [node_upd_self g f h]
  · simp [hj, node_upd_ne g f hj]

theorem node_initDG (nb : Nat) (i : Nat) : (initDG nb).node i = default := by
  unfold initDG DynamicGraph.node
  rcases Nat.lt_or_ge i nb with h | h
  · simp [List.getD_eq_getElem?_getD, List.getElem?_eq_getElem
      (by simpa using h : i < (List.replicate nb (default : DynGraphNode)).length)]
  · exact List.getD_eq_default _ _ (by simpa using h)

theorem n_initDG (nb : Nat) : (initDG nb).n = nb := by
  simp [initDG, DynamicGraph.n]

/-! Fuel lemmas for the parent walk. -/

theorem findRootAux_root (g : DynamicGraph) {i : Nat}
    (h : (g.node i).parent_ = none) (fuel : Nat) :
    findRootAux g fuel i = i := by
  cases fuel with
  | zero => rfl
  | succ fuel => simp [findRootAux, h]

theorem findRootAux_parent (g : DynamicGraph) {i p : Nat}
    (h : (g.node i).parent_ = some p) (fuel : Nat) :
    findRootAux g (fuel + 1) i = findRootAux g fuel p := by
  simp [findRootAux, h]

theorem findRootAux_add (g : DynamicGraph) (f1 f2 i : Nat) :
    findRootAux g (f1 + f2) i = findRootAux g f2 (findRootAux g f1 i) := by
  induction f1 generalizing i with
  | zero => simp [findRootAux]
  | succ f1 ih =>
    cases hp : (g.node i).parent_ with
    | none =>
      rw [findRootAux_root g hp, findRootAux_root g hp,
        findRootAux_root g hp]
    | some p =>
      have : f1 + 1 + f2 = (f1 + f2) + 1 := by omega
      rw [this, findRootAux_parent g hp, findRootAux_parent g hp, ih]

theorem reaches_zero (g : DynamicGraph) {i : Nat}
    (h : (g.node i).parent_ = none) : Reaches g 0 i := h

theorem reaches_succ (g : DynamicGraph) {i p : Nat} {fuel : Nat}
    (h : (g.node i).parent_ = some p) :
    Reaches g (fuel + 1) i ↔ Reaches g fuel p := by
  unfold Reaches
  rw [findRootAux_parent g h]

theorem findRootAux_stable (g : DynamicGraph) {fuel i : Nat}
    (h : Reaches g fuel i) (k : Nat) :
    findRootAux g (fuel + k) i = findRootAux g fuel i := by
  rw [findRootAux_add, findRootAux_root g h]

theorem reaches_mono (g : DynamicGraph) {fuel i : Nat}
    (h : Reaches g fuel i) (k : Nat) : Reaches g (fuel + k) i := by
  unfold Reaches
  rw [findRootAux_stable g h k]
  exact h

theorem reaches_le (g : DynamicGraph) {f1 f2 i : Nat}
    (h : Reaches g f1 i) (hle : f1 ≤ f2) : Reaches g f2 i := by
  have := reaches_mono g h (f2 - f1)
  rwa [Nat.add_sub_cancel' hle] at this

theorem findRootAux_congr_of_le (g : DynamicGraph) {f1 f2 i : Nat}
    (h : Reaches g f1 i) (hle : f1 ≤ f2) :
    findRootAux g f2 i = findRootAux g f1 i := by
  have := findRootAux_stable g h (f2 - f1)
  rwa [Nat.add_sub_cancel' hle] at this

theorem findRoot_parent (g : DynamicGraph) (wf : WF g) {i p : Nat}
    (h : (g.node i).parent_ = some p) : g.findRoot i = g.findRoot p := by
  have hin : p < g.n := wf.bounded i p h
  have hn : g.n = (g.n - 1) + 1 := by omega
  have hreach : Reaches g (g.n - 1) p := by
    have := wf.reaches i
    rw [show Reaches g g.n i = Reaches g ((g.n - 1) + 1) i from by rw [← hn]] at this
    exact (reaches_succ g h).mp this
  unfold DynamicGraph.findRoot
  rw [hn, findRootAux_parent g h]
  exact (findRootAux_congr_of_le g hreach (by omega)).symm

theorem findRoot_root (g : DynamicGraph) {i : Nat}
    (h : (g.node i).parent_ = none) : g.findRoot i = i :=
  findRootAux_root g h g.n

theorem parent_findRoot (g : DynamicGraph) (wf : WF g) (i : Nat) :
    (g.node (g.findRoot i)).parent_ = none :=
  wf.reaches i

theorem findRoot_findRoot (g : DynamicGraph) (wf : WF g) (i : Nat) :
    g.findRoot (g.findRoot i) = g.findRoot i :=
  findRoot_root g (parent_findRoot g wf i)

/-! Lemmas about the visited path: shape, chain structure, absence of
duplicates, and the resulting fuel normalization. -/

theorem pathToRootAux_root (g : DynamicGraph) {i : Nat}
    (h : (g.node i).parent_ = none) (fuel : Nat) :
    pathToRootAux g fuel i = [i] := by
  cases fuel with
  | zero => rfl
  | succ fuel => simp [pathToRootAux, h]

theorem pathToRootAux_parent (g : DynamicGraph) {i p : Nat}
    (h : (g.node i).parent_ = some p) (fuel : Nat) :
    pathToRootAux g (fuel + 1) i = i :: pathToRootAux g fuel p := by
  simp [pathToRootAux, h]

theorem head_pathToRootAux (g : DynamicGraph) (fuel i : Nat) :
    (pathToRootAux g fuel i).head? = some i := by
  cases fuel with
  | zero => rfl
  | succ fuel =>
    cases h : (g.node i).parent_ with
    | none => simp [pathToRootAux, h]
    | some p => simp [pathToRootAux, h]

theorem self_mem_pathToRootAux (g : DynamicGraph) (fuel i : Nat) :
    i ∈ pathToRootAux g fuel i := by
  cases fuel with
  | zero => simp [pathToRootAux]
  | succ fuel =>
    cases h : (g.node i).parent_ with
    | none => simp [pathToRootAux, h]
    | some p => simp [pathToRootAux, h]

theorem length_pathToRootAux (g : DynamicGraph) (fuel : Nat) (i : Nat) :
    (pathToRootAux g fuel i).length = stepsAux g fuel i + 1 := by
  induction fuel generalizing i with
  | zero => rfl
  | succ fuel ih =>
    cases h : (g.node i).parent_ with
    | none => simp [pathToRootAux, stepsAux, h]
    | some p => simp [pathToRootAux, stepsAux, h, ih]

theorem getLastD_pathToRootAux (g : DynamicGraph) (fuel : Nat) (i d : Nat) :
    (pathToRootAux g fuel i).getLastD d = findRootAux g fuel i := by
  induction fuel generalizing i d with
  | zero => rfl
  | succ fuel ih =>
    cases h : (g.node i).parent_ with
    | none => simp [pathToRootAux, findRootAux, h]
    | some p =>
      rw [pathToRootAux_parent g h, findRootAux_parent g h,
        List.getLastD_cons, ih]

theorem chain_pathToRootAux (g : DynamicGraph) (fuel i : Nat) :
    List.Chain' (fun u v => (g.node u).parent_ = some v)
      (pathToRootAux g fuel i) := by
  induction fuel generalizing i with
  | zero => simp [pathToRootAux]
  | succ fuel ih =>
    cases h : (g.node i).parent_ with
    | none => simp [pathToRootAux, h]
    | some p =>
      rw [pathToRootAux_parent g h]
      rw [List.chain'_cons']
      refine ⟨fun y hy => ?_, ih p⟩
      rw [head_pathToRootAux g fuel p] at hy
      simp at hy
      rw [← hy]
      exact h

theorem stepsAux_root (g : DynamicGraph) {i : Nat}
    (h : (g.node i).parent_ = none) (fuel : Nat) :
    stepsAux g fuel i = 0 := by
  cases fuel with
  | zero => rfl
  | succ fuel => simp [stepsAux, h]

theorem stepsAux_parent (g : DynamicGraph) {i p : Nat}
    (h : (g.node i).parent_ = some p) (fuel : Nat) :
    stepsAux g (fuel + 1) i = stepsAux g fuel p + 1 := by
  simp [stepsAux, h]

theorem stepsAux_stable (g : DynamicGraph) {fuel i : Nat}
    (h : Reaches g fuel i) (k : Nat) :
    stepsAux g (fuel + k) i = stepsAux g fuel i := by
  induction fuel generalizing i with
  | zero =>
    have hr : (g.node i).parent_ = none := h
    rw [stepsAux_root g hr, stepsAux_root g hr]
  | succ fuel ih =>
    cases hp : (g.node i).parent_ with
    | none => rw [stepsAux_root g hp, stepsAux_root g hp]
    | some p =>
      have hshift : fuel + 1 + k = (fuel + k) + 1 := by omega
      rw [hshift, stepsAux_parent g hp, stepsAux_parent g hp,
        ih ((reaches_succ g hp).mp h)]

theorem reaches_steps (g : DynamicGraph) {fuel i : Nat}
    (h : Reaches g fuel i) : Reaches g (stepsAux g fuel i) i := by
  induction fuel generalizing i with
  | zero => exact h
  | succ fuel ih =>
    cases hp : (g.node i).parent_ with
    | none =>
      rw [stepsAux_root g hp]
      exact reaches_zero g hp
    | some p =>
      rw [stepsAux_parent g hp]
      exact (reaches_succ g hp).mpr (ih ((reaches_succ g hp).mp h))

theorem mem_pathToRootAux_le (g : DynamicGraph) {fuel z y : Nat}
    (h : Reaches g fuel z) (hy : y ∈ pathToRootAux g fuel z) :
    Reaches g fuel y ∧ stepsAux g fuel y ≤ stepsAux g fuel z := by
  induction fuel generalizing z with
  | zero =>
    simp [pathToRootAux] at hy
    subst hy
    exact ⟨h, Nat.le_refl _⟩
  | succ fuel ih =>
    cases hp : (g.node z).parent_ with
    | none =>
      rw [pathToRootAux_root g hp] at hy
      simp at hy
      subst hy
      exact ⟨h, Nat.le_refl _⟩
    | some p =>
      rw [pathToRootAux_parent g hp] at hy
      rcases List.mem_cons.mp hy with hz | hyp
      · subst hz
        exact ⟨h, Nat.le_refl _⟩
      · have hrp : Reaches g fuel p := (reaches_succ g hp).mp h
        obtain ⟨hr, hle⟩ := ih hrp hyp
        refine ⟨reaches_mono g hr 1, ?_⟩
        rw [show fuel + 1 = fuel + 1 from rfl, stepsAux_parent g hp,
          stepsAux_stable g hr 1]
        omega

theorem nodup_pathToRootAux (g : DynamicGraph) {fuel i : Nat}
    (h : Reaches g fuel i) : (pathToRootAux g fuel i).Nodup := by
  induction fuel generalizing i with
  | zero => simp [pathToRootAux]
  | succ fuel ih =>
    cases hp : (g.node i).parent_ with
    | none =>
      rw [pathToRootAux_root g hp]
      simp
    | some p =>
      rw [pathToRootAux_parent g hp]
      have hrp : Reaches g fuel p := (reaches_succ g hp).mp h
      refine List.nodup_cons.mpr ⟨fun hmem => ?_, ih hrp⟩
      obtain ⟨hri, hle⟩ := mem_pathToRootAux_le g hrp hmem
      have h1 : stepsAux g (fuel + 1) i = stepsAux g fuel p + 1 :=
        stepsAux_parent g hp fuel
      have h2 : stepsAux g (fuel + 1) i = stepsAux g fuel i :=
        stepsAux_stable g hri 1
      omega

theorem mem_pathToRootAux_lt (g : DynamicGraph)
    (hb : ∀ i p, (g.node i).parent_ = some p → p < g.n) {fuel i y : Nat}
    (hi : i < g.n) (hy : y ∈ pathToRootAux g fuel i) : y < g.n := by
  induction fuel generalizing i with
  | zero =>
    simp [pathToRootAux] at hy
    omega
  | succ fuel ih =>
    cases hp : (g.node i).parent_ with
    | none =>
      rw [pathToRootAux_root g hp] at hy
      simp at hy
      omega
    | some p =>
      rw [pathToRootAux_parent g hp] at hy
      rcases List.mem_cons.mp hy with hz | hyp
      · omega
      · exact ih (hb i p hp) hyp

theorem nodup_bounded_length_le {l : List Nat} {nb : Nat} (hn : l.Nodup)
    (hb : ∀ y ∈ l, y < nb) : l.length ≤ nb := by
  have hcard := List.toFinset_card_of_nodup hn
  have hsub : l.toFinset ⊆ Finset.range nb := by
    intro x hx
    rw [List.mem_toFinset] at hx
    rw [Finset.mem_range]
    exact hb x hx
  calc l.length = l.toFinset.card := hcard.symm
    _ ≤ (Finset.range nb).card := Finset.card_le_card hsub
    _ = nb := Finset.card_range nb

theorem parent_none_of_out_of_range (g : DynamicGraph) {i : Nat}
    (h : g.n ≤ i) : (g.node i).parent_ = none := by
  rw [node_out_of_range g h]
  rfl

theorem reaches_of_exists (g : DynamicGraph)
    (hb : ∀ i p, (g.node i).parent_ = some p → p < g.n) (i : Nat)
    (hex : ∃ f, Reaches g f i) : Reaches g g.n i := by
  obtain ⟨f, hf⟩ := hex
  by_cases hi : i < g.n
  · have hnodup := nodup_pathToRootAux g hf
    have hmem : ∀ y ∈ pathToRootAux g f i, y < g.n := fun y hy =>
      mem_pathToRootAux_lt g hb hi hy
    have hlen : (pathToRootAux g f i).length ≤ g.n :=
      nodup_bounded_length_le hnodup hmem
    rw [length_pathToRootAux] at hlen
    exact reaches_le g (reaches_steps g hf) (Nat.le_of_succ_le hlen)
  · have hnone := parent_none_of_out_of_range g (Nat.le_of_not_lt hi)
    unfold Reaches
    rw [findRootAux_root g hnone]
    exact hnone

theorem wf_of_exists (g : DynamicGraph)
    (hb : ∀ i p, (g.node i).parent_ = some p → p < g.n)
    (hex : ∀ i, ∃ f, Reaches g f i) : WF g :=
  ⟨hb, fun i => reaches_of_exists g hb i (hex i)⟩

theorem wf_of_check (g : DynamicGraph) (h : wfCheck g = true) : WF g := by
  unfold wfCheck at h
  rw [Bool.and_eq_true, decide_eq_true_eq, decide_eq_true_eq] at h
  obtain ⟨hb, hr⟩ := h
  have hb2 : ∀ i p, (g.node i).parent_ = some p → p < g.n := by
    intro i p hp
    by_cases hi : i < g.n
    · exact hb i hi p hp
    · rw [parent_none_of_out_of_range g (by omega)] at hp
      cases hp
  refine ⟨hb2, fun i => ?_⟩
  by_cases hi : i < g.n
  · exact hr i hi
  · exact reaches_of_exists g hb2 i
      ⟨0, reaches_zero g (parent_none_of_out_of_range g (by omega))⟩

/-! Connectivity inside one forest: two nodes share a root exactly when a
chain of tree edges joins them. -/

theorem treeEdge_symm {g : DynamicGraph} {i j : Nat} (h : TreeEdge g i j) :
    TreeEdge g j i :=
  h.symm

theorem rtg_treeEdge_findRootAux (g : DynamicGraph) (fuel i : Nat) :
    Relation.ReflTransGen (TreeEdge g) i (findRootAux g fuel i) := by
  induction fuel generalizing i with
  | zero => exact Relation.ReflTransGen.refl
  | succ fuel ih =>
    cases hp : (g.node i).parent_ with
    | none =>
      rw [findRootAux_root g hp]
    | some p =>
      rw [findRootAux_parent g hp]
      exact Relation.ReflTransGen.head (Or.inl hp) (ih p)

theorem findRoot_eq_of_treeEdge (g : DynamicGraph) (wf : WF g) {i j : Nat}
    (h : TreeEdge g i j) : g.findRoot i = g.findRoot j := by
  rcases h with h | h
  · exact findRoot_parent g wf h
  · exact (findRoot_parent g wf h).symm

theorem findRoot_eq_of_rtg (g : DynamicGraph) (wf : WF g) {i j : Nat}
    (h : Relation.ReflTransGen (TreeEdge g) i j) :
    g.findRoot i = g.findRoot j := by
  induction h with
  | refl => rfl
  | tail _ hstep ih => exact ih.trans (findRoot_eq_of_treeEdge g wf hstep)

theorem rtg_treeEdge_symmetric {g : DynamicGraph} {i j : Nat}
    (h : Relation.ReflTransGen (TreeEdge g) i j) :
    Relation.ReflTransGen (TreeEdge g) j i := by
  induction h with
  | refl => exact Relation.ReflTransGen.refl
  | tail _ hstep ih => exact Relation.ReflTransGen.head (treeEdge_symm hstep) ih

theorem findRoot_eq_iff_rtg (g : DynamicGraph) (wf : WF g) (i j : Nat) :
    g.findRoot i = g.findRoot j ↔
      Relation.ReflTransGen (TreeEdge g) i j := by
  constructor
  · intro h
    have hi : Relation.ReflTransGen (TreeEdge g) i (g.findRoot i) :=
      rtg_treeEdge_findRootAux g g.n i
    have hj : Relation.ReflTransGen (TreeEdge g) j (g.findRoot j) :=
      rtg_treeEdge_findRootAux g g.n j
    rw [h] at hi
    exact hi.trans (rtg_treeEdge_symmetric hj)
  · exact findRoot_eq_of_rtg g wf

/-! Congruence: a walk only looks at the parents of the nodes it visits, so
two forests agreeing there produce the same walk. -/

theorem findRootAux_mem_pathToRootAux (g : DynamicGraph) (fuel i : Nat) :
    findRootAux g fuel i ∈ pathToRootAux g fuel i := by
  induction fuel generalizing i with
  | zero => simp [findRootAux, pathToRootAux]
  | succ fuel ih =>
    cases hp : (g.node i).parent_ with
    | none =>
      rw [findRootAux_root g hp, pathToRootAux_root g hp]
      simp
    | some p =>
      rw [findRootAux_parent g hp, pathToRootAux_parent g hp]
      exact List.mem_cons_of_mem i (ih p)

theorem pathToRootAux_congr {g g2 : DynamicGraph} {fuel x : Nat}
    (hagree : ∀ y ∈ pathToRootAux g fuel x,
      (g2.node y).parent_ = (g.node y).parent_) :
    pathToRootAux g2 fuel x = pathToRootAux g fuel x := by
  induction fuel generalizing x with
  | zero => rfl
  | succ fuel ih =>
    have hx : (g2.node x).parent_ = (g.node x).parent_ :=
      hagree x (self_mem_pathToRootAux g (fuel + 1) x)
    cases hp : (g.node x).parent_ with
    | none =>
      rw [pathToRootAux_root g hp, pathToRootAux_root g2 (by rw [hx, hp])]
    | some p =>
      rw [pathToRootAux_parent g hp,
        pathToRootAux_parent g2 (by rw [hx, hp])]
      rw [ih fun y hy => hagree y
        (by rw [pathToRootAux_parent g hp]; exact List.mem_cons_of_mem x hy)]

theorem findRootAux_congr {g g2 : DynamicGraph} {fuel x : Nat}
    (hagree : ∀ y ∈ pathToRootAux g fuel x,
      (g2.node y).parent_ = (g.node y).parent_) :
    findRootAux g2 fuel x = findRootAux g fuel x := by
  rw [← getLastD_pathToRootAux g fuel x x,
    ← getLastD_pathToRootAux g2 fuel x x, pathToRootAux_congr hagree]

theorem reaches_congr {g g2 : DynamicGraph} {fuel x : Nat}
    (hagree : ∀ y ∈ pathToRootAux g fuel x,
      (g2.node y).parent_ = (g.node y).parent_)
    (h : Reaches g fuel x) : Reaches g2 fuel x := by
  unfold Reaches at h ⊢
  rw [findRootAux_congr hagree,
    hagree _ (findRootAux_mem_pathToRootAux g fuel x)]
  exact h

theorem findRoot_eq_of_mem_pathToRootAux (g : DynamicGraph) (wf : WF g)
    {fuel i x : Nat} (hx : x ∈ pathToRootAux g fuel i) :
    g.findRoot x = g.findRoot i := by
  induction fuel generalizing i with
  | zero =>
    simp [pathToRootAux] at hx
    rw [hx]
  | succ fuel ih =>
    cases hp : (g.node i).parent_ with
    | none =>
      rw [pathToRootAux_root g hp] at hx
      simp at hx
      rw [hx]
    | some p =>
      rw [pathToRootAux_parent g hp] at hx
      rcases List.mem_cons.mp hx with hz | hmem
      · rw [hz]
      · rw [ih hmem, findRoot_parent g wf hp]

/-- A walk that starts in a region where both forests agree on parents and
whose old path meets the changed set S must, in the new forest, arrive at
some node of S. -/
theorem findRootAux_escape {g g2 : DynamicGraph} {S : Nat → Prop}
    (hagree : ∀ y, ¬ S y → (g2.node y).parent_ = (g.node y).parent_)
    {fuel x : Nat} (hmem : ∃ y ∈ pathToRootAux g fuel x, S y) :
    ∃ s z, S z ∧ findRootAux g2 s x = z := by
  induction fuel generalizing x with
  | zero =>
    obtain ⟨y, hy, hSy⟩ := hmem
    simp [pathToRootAux] at hy
    exact ⟨0, x, hy ▸ hSy, rfl⟩
  | succ fuel ih =>
    by_cases hSx : S x
    · exact ⟨0, x, hSx, rfl⟩
    · have hx : (g2.node x).parent_ = (g.node x).parent_ := hagree x hSx
      cases hp : (g.node x).parent_ with
      | none =>
        obtain ⟨y, hy, hSy⟩ := hmem
        rw [pathToRootAux_root g hp] at hy
        simp at hy
        subst hy
        exact absurd hSy hSx
      | some p =>
        obtain ⟨y, hy, hSy⟩ := hmem
        rw [pathToRootAux_parent g hp] at hy
        rcases List.mem_cons.mp hy with hz | hmem2
        · subst hz
          exact absurd hSy hSx
        · obtain ⟨s, z, hSz, hs⟩ := ih ⟨y, hmem2, hSy⟩
          refine ⟨s + 1, z, hSz, ?_⟩
          rw [findRootAux_parent g2 (by rw [hx, hp]), hs]

/-- Walking down a parent chain whose last node is a root reaches a root
from any member. -/
theorem reaches_of_chain (g : DynamicGraph) {L : List Nat}
    (hch : List.Chain' (fun u v => (g.node u).parent_ = some v) L)
    (hlast : ∀ z, L.getLast? = some z → (g.node z).parent_ = none)
    {x : Nat} (hx : x ∈ L) : ∃ f, Reaches g f x := by
  induction L generalizing x with
  | nil => cases hx
  | cons u L ih =>
    rcases List.mem_cons.mp hx with hz | hmem
    · rw [hz]
      cases L with
      | nil =>
        refine ⟨0, reaches_zero g (hlast u ?_)⟩
        simp
      | cons v L2 =>
        have hparent : (g.node u).parent_ = some v :=
          (List.chain'_cons.mp hch).1
        obtain ⟨f, hf⟩ := ih (List.chain'_cons.mp hch).2
          (fun z hz => hlast z (by rw [← hz]; simp [List.getLast?_cons_cons]))
          (List.mem_cons_self v L2)
        exact ⟨f + 1, (reaches_succ g hparent).mpr hf⟩
    · cases L with
      | nil => cases hmem
      | cons v L2 =>
        exact ih (List.chain'_cons.mp hch).2
          (fun z hz => hlast z (by rw [← hz]; simp [List.getLast?_cons_cons]))
          hmem

/-! Effect of the path reversal performed by evert. -/

theorem upd_out_of_range (g : DynamicGraph) {i : Nat}
    (f : DynGraphNode → DynGraphNode) (h : g.n ≤ i) : upd g i f = g := by
  unfold upd
  rw [List.set_eq_of_length_le h]

theorem n_reverseAlong (g : DynamicGraph) (prev : Nat) (L : List Nat) :
    (reverseAlong g prev L).n = g.n := by
  induction L generalizing g prev with
  | nil => rfl
  | cons x xs ih =>
    unfold reverseAlong
    rw [ih, setParent, n_upd]

theorem node_reverseAlong_notMem {L : List Nat} {j : Nat} :
    ∀ (g : DynamicGraph) (prev : Nat), j ∉ L →
      (reverseAlong g prev L).node j = g.node j := by
  induction L with
  | nil => intro g prev _; rfl
  | cons x xs ih =>
    intro g prev hj
    unfold reverseAlong
    rw [ih _ _ (fun h => hj (List.mem_cons_of_mem x h)), setParent,
      node_upd_ne g _
        (fun h => hj (by rw [h]; exact List.mem_cons_self x xs))]

theorem node_reverseAlong_fields {L : List Nat} :
    ∀ (g : DynamicGraph) (prev j : Nat),
      ((reverseAlong g prev L).node j).weight_ = (g.node j).weight_ ∧
      ((reverseAlong g prev L).node j).nbChilds_ = (g.node j).nbChilds_ ∧
      ((reverseAlong g prev L).node j).corArc_ = (g.node j).corArc_ := by
  induction L with
  | nil => intro g prev j; exact ⟨rfl, rfl, rfl⟩
  | cons x xs ih =>
    intro g prev j
    unfold reverseAlong
    obtain ⟨h1, h2, h3⟩ := ih (setParent g x (some prev)) x j
    rw [h1, h2, h3]
    by_cases hx : x < g.n
    · by_cases hj : j = x
      · rw [hj, setParent, node_upd_self g _ hx]
        exact ⟨rfl, rfl, rfl⟩
      · rw [setParent, node_upd_ne g _ hj]
        exact ⟨rfl, rfl, rfl⟩
    · rw [setParent, upd_out_of_range g _ (Nat.le_of_not_lt hx)]
      exact ⟨rfl, rfl, rfl⟩

theorem chain_reverseAlong {L : List Nat} :
    ∀ (g : DynamicGraph) (prev : Nat), (prev :: L).Nodup →
      (∀ x ∈ L, x < g.n) →
      List.Chain' (fun u v => ((reverseAlong g prev L).node v).parent_ = some u)
        (prev :: L) := by
  induction L with
  | nil => intro g prev _ _; exact List.chain'_singleton prev
  | cons x xs ih =>
    intro g prev hnd hlt
    unfold reverseAlong
    rw [List.chain'_cons]
    constructor
    · have hxs : x ∉ xs := (List.nodup_cons.mp (List.Nodup.of_cons hnd)).1
      rw [node_reverseAlong_notMem _ _ hxs, setParent,
        node_upd_self g _ (hlt x (List.mem_cons_self x xs))]
    · have hnd2 : (x :: xs).Nodup := List.Nodup.of_cons hnd
      have hlt2 : ∀ y ∈ xs, y < (setParent g x (some prev)).n := by
        intro y hy
        rw [setParent, n_upd]
        exact hlt y (List.mem_cons_of_mem x hy)
      exact ih (setParent g x (some prev)) x hnd2 hlt2

/-! Shape of the path and reduction of evert. -/

theorem pathToRoot_shape (g : DynamicGraph) (i : Nat) :
    ∃ t, g.pathToRoot i = i :: t := by
  unfold DynamicGraph.pathToRoot
  cases hn : g.n with
  | zero => exact ⟨[], rfl⟩
  | succ m =>
    cases hp : (g.node i).parent_ with
    | none => exact ⟨[], by rw [pathToRootAux_root g hp]⟩
    | some p => exact ⟨pathToRootAux g m p, by rw [pathToRootAux_parent g hp]⟩

theorem evert_of_root (g : DynamicGraph) {i : Nat}
    (h : (g.node i).parent_ = none) : g.evert i = g := by
  have hP : g.pathToRoot i = [i] := pathToRootAux_root g h g.n
  unfold DynamicGraph.evert
  rw [hP]

theorem evert_eq_of_path (g : DynamicGraph) {i y : Nat} {rest : List Nat}
    (hP : g.pathToRoot i = i :: y :: rest) :
    g.evert i =
      subChild
        (addChild (reverseAlong (setParent g i none) i (y :: rest)) i)
        ((i :: y :: rest).getLastD i) := by
  unfold DynamicGraph.evert
  rw [hP]

/-! Generic list-chain helpers. -/

theorem chain_pred_of_mem_tail {α : Type} {R : α → α → Prop} :
    ∀ {x : α} {l : List α}, List.Chain' R (x :: l) → ∀ {j}, j ∈ l →
      ∃ u ∈ x :: l, R u j := by
  intro x l
  induction l generalizing x with
  | nil =>
    intro _ j hj
    cases hj
  | cons y l2 ih =>
    intro hch j hj
    rcases List.mem_cons.mp hj with hz | hmem
    · exact ⟨x, List.mem_cons_self x _, hz ▸ (List.chain'_cons.mp hch).1⟩
    · obtain ⟨u, hu, hRu⟩ := ih (List.chain'_cons.mp hch).2 hmem
      exact ⟨u, List.mem_cons_of_mem x hu, hRu⟩

theorem chain_succ_of_mem {α : Type} {R : α → α → Prop} :
    ∀ {L : List α}, List.Chain' R L → ∀ {j}, j ∈ L →
      L.getLast? = some j ∨ ∃ v ∈ L, R j v := by
  intro L
  induction L with
  | nil =>
    intro _ j hj
    cases hj
  | cons x l ih =>
    intro hch j hj
    cases l with
    | nil =>
      rcases List.mem_cons.mp hj with hz | hmem
      · left
        rw [hz]
        rfl
      · cases hmem
    | cons y l2 =>
      rcases List.mem_cons.mp hj with hz | hmem
      · right
        exact ⟨y, List.mem_cons_of_mem x (List.mem_cons_self y l2),
          hz ▸ (List.chain'_cons.mp hch).1⟩
      · rcases ih (List.chain'_cons.mp hch).2 hmem with hlast | ⟨v, hv, hRv⟩
        · left
          rw [List.getLast?_cons_cons]
          exact hlast
        · exact Or.inr ⟨v, List.mem_cons_of_mem x hv, hRv⟩

theorem chain_and {α : Type} {R S : α → α → Prop} :
    ∀ {l : List α}, List.Chain' R l → List.Chain' S l →
      List.Chain' (fun a b => R a b ∧ S a b) l := by
  intro l
  induction l with
  | nil => intro _ _; exact List.chain'_nil
  | cons x l ih =>
    intro hR hS
    cases l with
    | nil => exact List.chain'_singleton x
    | cons y l2 =>
      rw [List.chain'_cons] at hR hS ⊢
      exact ⟨⟨hR.1, hS.1⟩, ih hR.2 hS.2⟩

/-! Field projections through single-node updates, and the shape of the
path below a non-root node. -/

theorem node_upd_proj {α : Type} (g : DynamicGraph) (j0 v : Nat)
    (f : DynGraphNode → DynGraphNode) (proj : DynGraphNode → α)
    (hf : ∀ nd, proj (f nd) = proj nd) :
    proj ((upd g j0 f).node v) = proj (g.node v) := by
  by_cases hj : j0 < g.n
  · by_cases hv : v = j0
    · rw [hv, node_upd_self g f hj, hf]
    · rw [node_upd_ne g f hv]
  · rw [upd_out_of_range g f (Nat.le_of_not_lt hj)]

theorem getLastD_cons_mem {α : Type} :
    ∀ (l : List α) (a d : α), (a :: l).getLastD d ∈ a :: l := by
  intro l
  induction l with
  | nil =>
    intro a d
    simp [List.getLastD]
  | cons b l2 ih =>
    intro a d
    rw [List.getLastD_cons]
    exact List.mem_cons_of_mem a (ih b a)

theorem lt_n_of_parent_some (g : DynamicGraph) {i p : Nat}
    (h : (g.node i).parent_ = some p) : i < g.n := by
  by_contra hig
  rw [parent_none_of_out_of_range g (Nat.le_of_not_lt hig)] at h
  cases h

theorem pathToRootAux_shape (g : DynamicGraph) (fuel p : Nat) :
    ∃ t, pathToRootAux g fuel p = p :: t := by
  cases fuel with
  | zero => exact ⟨[], rfl⟩
  | succ m =>
    cases hp : (g.node p).parent_ with
    | none => exact ⟨[], by rw [pathToRootAux_root g hp]⟩
    | some q => exact ⟨pathToRootAux g m q, by rw [pathToRootAux_parent g hp]⟩

theorem pathToRoot_cons_shape (g : DynamicGraph) {i p : Nat}
    (h : (g.node i).parent_ = some p) :
    ∃ rest, g.pathToRoot i = i :: p :: rest := by
  have hi := lt_n_of_parent_some g h
  obtain ⟨m, hm⟩ : ∃ m, g.n = m + 1 := ⟨g.n - 1, by omega⟩
  obtain ⟨t, ht⟩ := pathToRootAux_shape g m p
  refine ⟨t, ?_⟩
  unfold DynamicGraph.pathToRoot
  rw [hm, pathToRootAux_parent g h, ht]

/-! Node-level description of evert. -/

theorem parent_subChild (g : DynamicGraph) (j0 v : Nat) :
    ((subChild g j0).node v).parent_ = (g.node v).parent_ :=
  node_upd_proj g j0 v _ (fun nd => nd.parent_) (fun _ => rfl)

theorem weight_subChild (g : DynamicGraph) (j0 v : Nat) :
    ((subChild g j0).node v).weight_ = (g.node v).weight_ :=
  node_upd_proj g j0 v _ (fun nd => nd.weight_) (fun _ => rfl)

theorem corArc_subChild (g : DynamicGraph) (j0 v : Nat) :
    ((subChild g j0).node v).corArc_ = (g.node v).corArc_ :=
  node_upd_proj g j0 v _ (fun nd => nd.corArc_) (fun _ => rfl)

theorem parent_addChild (g : DynamicGraph) (j0 v : Nat) :
    ((addChild g j0).node v).parent_ = (g.node v).parent_ :=
  node_upd_proj g j0 v _ (fun nd => nd.parent_) (fun _ => rfl)

theorem weight_addChild (g : DynamicGraph) (j0 v : Nat) :
    ((addChild g j0).node v).weight_ = (g.node v).weight_ :=
  node_upd_proj g j0 v _ (fun nd => nd.weight_) (fun _ => rfl)

theorem corArc_addChild (g : DynamicGraph) (j0 v : Nat) :
    ((addChild g j0).node v).corArc_ = (g.node v).corArc_ :=
  node_upd_proj g j0 v _ (fun nd => nd.corArc_) (fun _ => rfl)

theorem parent_setWeight (g : DynamicGraph) (j0 : Nat) (w : Int) (v : Nat) :
    ((setWeight g j0 w).node v).parent_ = (g.node v).parent_ :=
  node_upd_proj g j0 v _ (fun nd => nd.parent_) (fun _ => rfl)

theorem nbChilds_setWeight (g : DynamicGraph) (j0 : Nat) (w : Int) (v : Nat) :
    ((setWeight g j0 w).node v).nbChilds_ = (g.node v).nbChilds_ :=
  node_upd_proj g j0 v _ (fun nd => nd.nbChilds_) (fun _ => rfl)

theorem corArc_setWeight (g : DynamicGraph) (j0 : Nat) (w : Int) (v : Nat) :
    ((setWeight g j0 w).node v).corArc_ = (g.node v).corArc_ :=
  node_upd_proj g j0 v _ (fun nd => nd.corArc_) (fun _ => rfl)

theorem weight_setParent (g : DynamicGraph) (j0 : Nat) (po : Option Nat)
    (v : Nat) : ((setParent g j0 po).node v).weight_ = (g.node v).weight_ :=
  node_upd_proj g j0 v _ (fun nd => nd.weight_) (fun _ => rfl)

theorem corArc_setParent (g : DynamicGraph) (j0 : Nat) (po : Option Nat)
    (v : Nat) : ((setParent g j0 po).node v).corArc_ = (g.node v).corArc_ :=
  node_upd_proj g j0 v _ (fun nd => nd.corArc_) (fun _ => rfl)

theorem nbChilds_setParent (g : DynamicGraph) (j0 : Nat) (po : Option Nat)
    (v : Nat) :
    ((setParent g j0 po).node v).nbChilds_ = (g.node v).nbChilds_ :=
  node_upd_proj g j0 v _ (fun nd => nd.nbChilds_) (fun _ => rfl)

theorem pathToRoot_root (g : DynamicGraph) {i : Nat}
    (h : (g.node i).parent_ = none) : g.pathToRoot i = [i] :=
  pathToRootAux_root g h g.n

theorem n_evert (g : DynamicGraph) (i : Nat) : (g.evert i).n = g.n := by
  cases hp : (g.node i).parent_ with
  | none => rw [evert_of_root g hp]
  | some p =>
    obtain ⟨rest, hP⟩ := pathToRoot_cons_shape g hp
    rw [evert_eq_of_path g hP]
    rw [subChild, n_upd, addChild, n_upd, n_reverseAlong, setParent, n_upd]

theorem node_evert_notMem (g : DynamicGraph) {i j : Nat}
    (hj : j ∉ g.pathToRoot i) : (g.evert i).node j = g.node j := by
  cases hp : (g.node i).parent_ with
  | none => rw [evert_of_root g hp]
  | some p =>
    obtain ⟨rest, hP⟩ := pathToRoot_cons_shape g hp
    rw [hP] at hj
    have hji : j ≠ i := fun h => hj (by rw [h]; exact List.mem_cons_self _ _)
    have hjt : j ∉ p :: rest := fun h => hj (List.mem_cons_of_mem i h)
    have hjl : j ≠ (i :: p :: rest).getLastD i := fun h =>
      hj (by rw [h]; exact getLastD_cons_mem _ i i)
    rw [evert_eq_of_path g hP, subChild, node_upd_ne _ _ hjl, addChild,
      node_upd_ne _ _ hji, node_reverseAlong_notMem _ _ hjt, setParent,
      node_upd_ne _ _ hji]

theorem weight_evert (g : DynamicGraph) (i j : Nat) :
    ((g.evert i).node j).weight_ = (g.node j).weight_ ∧
      ((g.evert i).node j).corArc_ = (g.node j).corArc_ := by
  cases hp : (g.node i).parent_ with
  | none => rw [evert_of_root g hp]; exact ⟨rfl, rfl⟩
  | some p =>
    obtain ⟨rest, hP⟩ := pathToRoot_cons_shape g hp
    rw [evert_eq_of_path g hP]
    obtain ⟨hw, _, hc⟩ :=
      node_reverseAlong_fields (L := p :: rest) (setParent g i none) i j
    constructor
    · rw [weight_subChild, weight_addChild, hw, weight_setParent]
    · rw [corArc_subChild, corArc_addChild, hc, corArc_setParent]

theorem parent_evert_self (g : DynamicGraph) (wf : WF g) (i : Nat) :
    ((g.evert i).node i).parent_ = none := by
  cases hp : (g.node i).parent_ with
  | none => rw [evert_of_root g hp]; exact hp
  | some p =>
    obtain ⟨rest, hP⟩ := pathToRoot_cons_shape g hp
    have hnd : (i :: p :: rest).Nodup := by
      rw [← hP]
      exact nodup_pathToRootAux g (wf.reaches i)
    have hitail : i ∉ p :: rest := (List.nodup_cons.mp hnd).1
    rw [evert_eq_of_path g hP, parent_subChild, parent_addChild,
      node_reverseAlong_notMem _ _ hitail, setParent,
      node_upd_self g _ (lt_n_of_parent_some g hp)]

theorem chain_evert (g : DynamicGraph) (wf : WF g) (i : Nat) :
    List.Chain' (fun u v => ((g.evert i).node v).parent_ = some u)
      (g.pathToRoot i) := by
  cases hp : (g.node i).parent_ with
  | none =>
    rw [pathToRoot_root g hp]
    exact List.chain'_singleton i
  | some p =>
    obtain ⟨rest, hP⟩ := pathToRoot_cons_shape g hp
    have hnd : (i :: p :: rest).Nodup := by
      rw [← hP]
      exact nodup_pathToRootAux g (wf.reaches i)
    have hi : i < g.n := lt_n_of_parent_some g hp
    have hlt : ∀ x ∈ p :: rest, x < (setParent g i none).n := by
      intro x hx
      rw [setParent, n_upd]
      have hmem : x ∈ pathToRootAux g g.n i := by
        rw [show pathToRootAux g g.n i = i :: p :: rest from hP]
        exact List.mem_cons_of_mem i hx
      exact mem_pathToRootAux_lt g wf.bounded hi hmem
    have hbase := chain_reverseAlong (setParent g i none) i hnd hlt
    rw [hP, evert_eq_of_path g hP]
    refine hbase.imp ?_
    intro a b hab
    rw [parent_subChild, parent_addChild]
    exact hab

theorem nbChilds_evert (g : DynamicGraph) (wf : WF g) {i p : Nat}
    (hp : (g.node i).parent_ = some p) :
    ((g.evert i).node i).nbChilds_ = (g.node i).nbChilds_ + 1 ∧
      ((g.evert i).node ((g.pathToRoot i).getLastD i)).nbChilds_ =
        (g.node ((g.pathToRoot i).getLastD i)).nbChilds_ - 1 ∧
      ∀ x, x ≠ i → x ≠ (g.pathToRoot i).getLastD i →
        ((g.evert i).node x).nbChilds_ = (g.node x).nbChilds_ := by
  obtain ⟨rest, hP⟩ := pathToRoot_cons_shape g hp
  have hnd : (i :: p :: rest).Nodup := by
    rw [← hP]
    exact nodup_pathToRootAux g (wf.reaches i)
  have hi : i < g.n := lt_n_of_parent_some g hp
  have hlast_mem : (i :: p :: rest).getLastD i ∈ p :: rest := by
    rw [List.getLastD_cons]
    exact getLastD_cons_mem rest p i
  have hlast_ne : (i :: p :: rest).getLastD i ≠ i := by
    intro h
    exact (List.nodup_cons.mp hnd).1 (h ▸ hlast_mem)
  have hlast_lt : (i :: p :: rest).getLastD i < g.n := by
    have hm : (i :: p :: rest).getLastD i ∈ pathToRootAux g g.n i := by
      rw [show pathToRootAux g g.n i = i :: p :: rest from hP]
      exact List.mem_cons_of_mem i hlast_mem
    exact mem_pathToRootAux_lt g wf.bounded hi hm
  have hg1 : ∀ v,
      ((reverseAlong (setParent g i none) i (p :: rest)).node v).nbChilds_ =
        (g.node v).nbChilds_ := by
    intro v
    obtain ⟨_, hnb, _⟩ :=
      node_reverseAlong_fields (L := p :: rest) (setParent g i none) i v
    rw [hnb, nbChilds_setParent]
  have hn1 : (addChild (reverseAlong (setParent g i none) i (p :: rest))
      i).n = g.n := by
    rw [addChild, n_upd, n_reverseAlong, setParent, n_upd]
  have hn0 : (reverseAlong (setParent g i none) i (p :: rest)).n = g.n := by
    rw [n_reverseAlong, setParent, n_upd]
  rw [hP, evert_eq_of_path g hP]
  refine ⟨?_, ?_, ?_⟩
  · rw [subChild, node_upd_ne _ _ hlast_ne.symm, addChild,
      node_upd_self _ _ (by rw [hn0]; exact hi), hg1 i]
  · rw [subChild, node_upd_self _ _ (by rw [hn1]; exact hlast_lt), addChild,
      node_upd_ne _ _ hlast_ne, hg1 _]
  · intro x hxi hxl
    rw [subChild, node_upd_ne _ _ hxl, addChild, node_upd_ne _ _ hxi, hg1 x]

theorem wf_evert (g : DynamicGraph) (wf : WF g) (i : Nat) :
    WF (g.evert i) := by
  cases hp : (g.node i).parent_ with
  | none =>
    rw [evert_of_root g hp]
    exact wf
  | some p =>
    obtain ⟨rest, hP⟩ := pathToRoot_cons_shape g hp
    have hi : i < g.n := lt_n_of_parent_some g hp
    have hmemlt : ∀ y ∈ i :: p :: rest, y < g.n := by
      intro y hy
      have hmem : y ∈ pathToRootAux g g.n i := by
        rw [show pathToRootAux g g.n i = i :: p :: rest from hP]
        exact hy
      exact mem_pathToRootAux_lt g wf.bounded hi hmem
    have hchain2 : List.Chain'
        (fun u v => ((g.evert i).node v).parent_ = some u)
        (i :: p :: rest) := by
      rw [← hP]
      exact chain_evert g wf i
    have hroot2 : ((g.evert i).node i).parent_ = none :=
      parent_evert_self g wf i
    have hn2 : (g.evert i).n = g.n := n_evert g i
    have hagree : ∀ y, ¬ (y ∈ i :: p :: rest) →
        ((g.evert i).node y).parent_ = (g.node y).parent_ := by
      intro y hy
      rw [node_evert_notMem g (by rw [hP]; exact hy)]
    have hbounded : ∀ j q, ((g.evert i).node j).parent_ = some q →
        q < (g.evert i).n := by
      intro j q hq
      rw [hn2]
      by_cases hj : j ∈ i :: p :: rest
      · rcases List.mem_cons.mp hj with hz | htail
        · rw [hz, hroot2] at hq
          cases hq
        · obtain ⟨u, hu, hRu⟩ := chain_pred_of_mem_tail hchain2 htail
          rw [hq] at hRu
          injection hRu with hqu
          subst hqu
          exact hmemlt _ hu
      · rw [hagree j hj] at hq
        exact wf.bounded j q hq
    refine wf_of_exists (g.evert i) hbounded ?_
    intro x
    by_cases hcase : ∃ y ∈ pathToRootAux g g.n x, y ∈ i :: p :: rest
    · obtain ⟨s, z, hz, hs⟩ :=
        findRootAux_escape (S := fun y => y ∈ i :: p :: rest) hagree hcase
      have hrev : List.Chain'
          (fun u v => ((g.evert i).node u).parent_ = some v)
          (i :: p :: rest).reverse :=
        List.chain'_reverse.mpr hchain2
      have hlastrev : ∀ z2, (i :: p :: rest).reverse.getLast? = some z2 →
          ((g.evert i).node z2).parent_ = none := by
        intro z2 hz2
        rw [List.getLast?_reverse] at hz2
        simp at hz2
        rw [← hz2]
        exact hroot2
      obtain ⟨f1, hf1⟩ := reaches_of_chain (g.evert i) hrev hlastrev
        (List.mem_reverse.mpr hz)
      refine ⟨s + f1, ?_⟩
      unfold Reaches
      rw [findRootAux_add, hs]
      exact hf1
    · push_neg at hcase
      refine ⟨g.n, reaches_congr (fun y hy => hagree y (hcase y hy))
        (wf.reaches x)⟩

theorem findRoot_evert_self (g : DynamicGraph) (wf : WF g) (i : Nat) :
    (g.evert i).findRoot i = i :=
  findRoot_root _ (parent_evert_self g wf i)

theorem findRoot_evert_other (g : DynamicGraph) (wf : WF g) {i x : Nat}
    (hdiff : g.findRoot x ≠ g.findRoot i) :
    (g.evert i).findRoot x = g.findRoot x := by
  have hagree : ∀ y ∈ pathToRootAux g g.n x,
      ((g.evert i).node y).parent_ = (g.node y).parent_ := by
    intro y hy
    have hyP : y ∉ g.pathToRoot i := by
      intro hmem
      have h1 : g.findRoot y = g.findRoot i :=
        findRoot_eq_of_mem_pathToRootAux g wf hmem
      have h2 : g.findRoot y = g.findRoot x :=
        findRoot_eq_of_mem_pathToRootAux g wf hy
      exact hdiff (h2.symm.trans h1)
    rw [node_evert_notMem g hyP]
  unfold DynamicGraph.findRoot
  rw [n_evert g i]
  exact findRootAux_congr hagree

theorem treeEdge_evert (g : DynamicGraph) (wf : WF g) (i : Nat) :
    ∀ a b, TreeEdge (g.evert i) a b ↔ TreeEdge g a b := by
  obtain ⟨tl, hPs⟩ := pathToRoot_shape g i
  have hchainG : List.Chain' (fun u v => (g.node u).parent_ = some v)
      (i :: tl) := by
    rw [← hPs]
    exact chain_pathToRootAux g g.n i
  have hchain2 : List.Chain'
      (fun u v => ((g.evert i).node v).parent_ = some u) (i :: tl) := by
    rw [← hPs]
    exact chain_evert g wf i
  have hcomb := chain_and hchainG hchain2
  have hroot2 : ((g.evert i).node i).parent_ = none :=
    parent_evert_self g wf i
  have hrootG : ∀ z, (i :: tl).getLast? = some z →
      (g.node z).parent_ = none := by
    intro z hz
    have hzD : (i :: tl).getLastD i = z := by
      rw [List.getLastD_eq_getLast?, hz]
      rfl
    have hfr : (i :: tl).getLastD i = g.findRoot i := by
      rw [← hPs]
      exact getLastD_pathToRootAux g g.n i i
    rw [← hzD, hfr]
    exact parent_findRoot g wf i
  have hA : ∀ a b, ((g.evert i).node a).parent_ = some b → TreeEdge g a b := by
    intro a b hab
    by_cases ha : a ∈ i :: tl
    · rcases List.mem_cons.mp ha with hz | htail
      · rw [hz, hroot2] at hab
        cases hab
      · obtain ⟨u, _, hGu, hEu⟩ := chain_pred_of_mem_tail hcomb htail
        rw [hab] at hEu
        injection hEu with hbu
        subst hbu
        exact Or.inr hGu
    · rw [node_evert_notMem g (by rw [hPs]; exact ha)] at hab
      exact Or.inl hab
  have hB : ∀ a b, (g.node a).parent_ = some b →
      TreeEdge (g.evert i) a b := by
    intro a b hab
    by_cases ha : a ∈ i :: tl
    · rcases chain_succ_of_mem hcomb ha with hlast | ⟨v, _, hGv, hEv⟩
      · rw [hrootG a hlast] at hab
        cases hab
      · rw [hab] at hGv
        injection hGv with hbv
        subst hbv
        exact Or.inr hEv
    · rw [← node_evert_notMem g (show a ∉ g.pathToRoot i by
        rw [hPs]; exact ha)] at hab
      exact Or.inl hab
  intro a b
  constructor
  · intro h
    rcases h with h | h
    · exact hA a b h
    · exact treeEdge_symm (hA b a h)
  · intro h
    rcases h with h | h
    · exact hB a b h
    · exact treeEdge_symm (hB b a h)

/-! Lemmas about detaching a node from its parent. -/

theorem steps_parent (g : DynamicGraph) (wf : WF g) {i p : Nat}
    (h : (g.node i).parent_ = some p) :
    stepsAux g g.n i = stepsAux g g.n p + 1 := by
  have hn : g.n = (g.n - 1) + 1 := by
    have := lt_n_of_parent_some g h
    omega
  have hreach : Reaches g (g.n - 1) p := by
    have hri := wf.reaches i
    rw [show Reaches g g.n i = Reaches g ((g.n - 1) + 1) i from by
      rw [← hn]] at hri
    exact (reaches_succ g h).mp hri
  calc stepsAux g g.n i = stepsAux g ((g.n - 1) + 1) i := by rw [← hn]
    _ = stepsAux g (g.n - 1) p + 1 := stepsAux_parent g h _
    _ = stepsAux g g.n p + 1 := by
        rw [← stepsAux_stable g hreach 1, ← hn]

theorem two_cycle_false (g : DynamicGraph) (wf : WF g) {a b : Nat}
    (hab : (g.node a).parent_ = some b) (hba : (g.node b).parent_ = some a) :
    False := by
  have h1 := steps_parent g wf hab
  have h2 := steps_parent g wf hba
  omega

theorem n_detach (g : DynamicGraph) (i p : Nat) : (detach g i p).n = g.n := by
  rw [detach, subChild, n_upd, setParent, n_upd]

theorem parent_detach_self (g : DynamicGraph) {i : Nat} (p : Nat)
    (hi : i < g.n) : ((detach g i p).node i).parent_ = none := by
  rw [detach, parent_subChild, setParent, node_upd_self g _ hi]

theorem parent_detach_other (g : DynamicGraph) {i j : Nat} (p : Nat)
    (hj : j ≠ i) :
    ((detach g i p).node j).parent_ = (g.node j).parent_ := by
  rw [detach, parent_subChild, setParent, node_upd_ne g _ hj]

theorem wf_detach (g : DynamicGraph) (wf : WF g) {i p : Nat}
    (hp : (g.node i).parent_ = some p) : WF (detach g i p) := by
  have hi : i < g.n := lt_n_of_parent_some g hp
  have hn2 : (detach g i p).n = g.n := n_detach g i p
  have hagree : ∀ y, ¬ (y = i) →
      ((detach g i p).node y).parent_ = (g.node y).parent_ :=
    fun y hy => parent_detach_other g p hy
  have hbounded : ∀ j q, ((detach g i p).node j).parent_ = some q →
      q < (detach g i p).n := by
    intro j q hq
    rw [hn2]
    by_cases hj : j = i
    · rw [hj, parent_detach_self g p hi] at hq
      cases hq
    · rw [hagree j hj] at hq
      exact wf.bounded j q hq
  refine wf_of_exists _ hbounded ?_
  intro x
  by_cases hcase : ∃ y ∈ pathToRootAux g g.n x, y = i
  · obtain ⟨s, z, hz, hs⟩ :=
      findRootAux_escape (S := fun y => y = i) hagree hcase
    refine ⟨s, ?_⟩
    unfold Reaches
    rw [hs, hz]
    exact parent_detach_self g p hi
  · push_neg at hcase
    exact ⟨g.n, reaches_congr (fun y hy => hagree y (hcase y hy))
      (wf.reaches x)⟩

theorem treeEdge_detach (g : DynamicGraph) (wf : WF g) {a b : Nat}
    (hab : (g.node a).parent_ = some b) :
    ∀ u v, TreeEdge (detach g a b) u v ↔
      (TreeEdge g u v ∧ ¬ (u = a ∧ v = b) ∧ ¬ (u = b ∧ v = a)) := by
  have ha : a < g.n := lt_n_of_parent_some g hab
  intro u v
  constructor
  · intro h
    rcases h with h | h
    · by_cases hu : u = a
      · rw [hu, parent_detach_self g b ha] at h
        cases h
      · rw [parent_detach_other g b hu] at h
        refine ⟨Or.inl h, fun hc => hu hc.1, fun hc => ?_⟩
        obtain ⟨hub, hva⟩ := hc
        rw [hub] at h
        rw [hva] at h
        exact two_cycle_false g wf hab h
    · by_cases hv : v = a
      · rw [hv, parent_detach_self g b ha] at h
        cases h
      · rw [parent_detach_other g b hv] at h
        refine ⟨Or.inr h, fun hc => ?_, fun hc => hv hc.2⟩
        obtain ⟨hua, hvb⟩ := hc
        rw [hvb] at h
        rw [hua] at h
        exact two_cycle_false g wf hab h
  · rintro ⟨hTE, hne1, hne2⟩
    rcases hTE with h | h
    · by_cases hu : u = a
      · exfalso
        rw [hu, hab] at h
        injection h with hvb
        exact hne1 ⟨hu, hvb.symm⟩
      · exact Or.inl (by rw [parent_detach_other g b hu]; exact h)
    · by_cases hv : v = a
      · exfalso
        rw [hv, hab] at h
        injection h with hub
        exact hne2 ⟨hub.symm, hv⟩
      · exact Or.inr (by rw [parent_detach_other g b hv]; exact h)

/-! Lemmas about hanging a root under another tree (the merge step). -/

theorem findRootAux_eq_of_mem_root (g : DynamicGraph) {f i x : Nat}
    (hx : x ∈ pathToRootAux g f i) (hnone : (g.node x).parent_ = none) :
    findRootAux g f i = x := by
  rcases chain_succ_of_mem (chain_pathToRootAux g f i) hx with hlast | ⟨v, _, hv⟩
  · rw [← getLastD_pathToRootAux g f i i, List.getLastD_eq_getLast?, hlast]
    rfl
  · rw [hnone] at hv
    cases hv

theorem n_attach (g : DynamicGraph) (child par : Nat) (w : Int) :
    (attach g child par w).n = g.n := by
  rw [attach, addChild, n_upd, setWeight, n_upd, setParent, n_upd]

theorem parent_attach_self (g : DynamicGraph) {child : Nat} (par : Nat)
    (w : Int) (hc : child < g.n) :
    ((attach g child par w).node child).parent_ = some par := by
  rw [attach, parent_addChild, parent_setWeight, setParent,
    node_upd_self g _ hc]

theorem parent_attach_other (g : DynamicGraph) {child j : Nat} (par : Nat)
    (w : Int) (hj : j ≠ child) :
    ((attach g child par w).node j).parent_ = (g.node j).parent_ := by
  rw [attach, parent_addChild, parent_setWeight, setParent,
    node_upd_ne g _ hj]

theorem child_notMem_path_par (g : DynamicGraph) {child par : Nat}
    (hnone : (g.node child).parent_ = none)
    (hdiff : g.findRoot par ≠ child) :
    child ∉ pathToRootAux g g.n par := fun hmem =>
  hdiff (findRootAux_eq_of_mem_root g hmem hnone)

theorem wf_attach (g : DynamicGraph) (wf : WF g) {child par : Nat} (w : Int)
    (hnone : (g.node child).parent_ = none) (hc : child < g.n)
    (hpar : par < g.n) (hdiff : g.findRoot par ≠ child) :
    WF (attach g child par w) := by
  have hn2 : (attach g child par w).n = g.n := n_attach g child par w
  have hagree : ∀ y, ¬ (y = child) →
      ((attach g child par w).node y).parent_ = (g.node y).parent_ :=
    fun y hy => parent_attach_other g par w hy
  have hbounded : ∀ j q, ((attach g child par w).node j).parent_ = some q →
      q < (attach g child par w).n := by
    intro j q hq
    rw [hn2]
    by_cases hj : j = child
    · rw [hj, parent_attach_self g par w hc] at hq
      injection hq with hqp
      rw [← hqp]
      exact hpar
    · rw [hagree j hj] at hq
      exact wf.bounded j q hq
  have hreach_par : Reaches (attach g child par w) g.n par := by
    refine reaches_congr (fun y hy => hagree y ?_) (wf.reaches par)
    intro hyc
    exact child_notMem_path_par g hnone hdiff (hyc ▸ hy)
  refine wf_of_exists _ hbounded ?_
  intro x
  by_cases hcase : ∃ y ∈ pathToRootAux g g.n x, y = child
  · obtain ⟨s, z, hz, hs⟩ :=
      findRootAux_escape (S := fun y => y = child) hagree hcase
    refine ⟨s + (g.n + 1), ?_⟩
    unfold Reaches
    rw [findRootAux_add, hs, hz,
      findRootAux_parent _ (parent_attach_self g par w hc)]
    exact hreach_par
  · push_neg at hcase
    exact ⟨g.n, reaches_congr (fun y hy => hagree y (hcase y hy))
      (wf.reaches x)⟩

theorem treeEdge_attach (g : DynamicGraph) {child par : Nat} (w : Int)
    (hnone : (g.node child).parent_ = none) (hc : child < g.n) :
    ∀ u v, TreeEdge (attach g child par w) u v ↔
      (TreeEdge g u v ∨ (u = child ∧ v = par) ∨ (u = par ∧ v = child)) := by
  intro u v
  constructor
  · intro h
    rcases h with h | h
    · by_cases hu : u = child
      · rw [hu, parent_attach_self g par w hc] at h
        injection h with hvp
        exact Or.inr (Or.inl ⟨hu, hvp.symm⟩)
      · rw [parent_attach_other g par w hu] at h
        exact Or.inl (Or.inl h)
    · by_cases hv : v = child
      · rw [hv, parent_attach_self g par w hc] at h
        injection h with hup
        exact Or.inr (Or.inr ⟨hup.symm, hv⟩)
      · rw [parent_attach_other g par w hv] at h
        exact Or.inl (Or.inr h)
  · intro h
    rcases h with h | ⟨hu, hv⟩ | ⟨hu, hv⟩
    · rcases h with h | h
      · have hu : u ≠ child := by
          intro hc2
          rw [hc2, hnone] at h
          cases h
        exact Or.inl (by rw [parent_attach_other g par w hu]; exact h)
      · have hv : v ≠ child := by
          intro hc2
          rw [hc2, hnone] at h
          cases h
        exact Or.inr (by rw [parent_attach_other g par w hv]; exact h)
    · rw [hu, hv]
      exact Or.inl (parent_attach_self g par w hc)
    · rw [hu, hv]
      exact Or.inr (parent_attach_self g par w hc)

theorem findRoot_attach_par (g : DynamicGraph)
    {child par : Nat} (w : Int) (hnone : (g.node child).parent_ = none)
    (hdiff : g.findRoot par ≠ child) :
    (attach g child par w).findRoot par = g.findRoot par := by
  unfold DynamicGraph.findRoot
  rw [n_attach]
  refine findRootAux_congr (fun y hy => parent_attach_other g par w ?_)
  intro hyc
  exact child_notMem_path_par g hnone hdiff (hyc ▸ hy)

theorem findRoot_attach_child (g : DynamicGraph) (wf : WF g)
    {child par : Nat} (w : Int) (hnone : (g.node child).parent_ = none)
    (hc : child < g.n) (hpar : par < g.n)
    (hdiff : g.findRoot par ≠ child) :
    (attach g child par w).findRoot child = g.findRoot par := by
  have hwf2 := wf_attach g wf w hnone hc hpar hdiff
  rw [findRoot_parent _ hwf2 (parent_attach_self g par w hc)]
  exact findRoot_attach_par g w hnone hdiff

/-! Reduction equations and invariant preservation for the public
operations. -/

theorem insertEdge_eq_same (g : DynamicGraph) {n1 n2 : Nat} (w : Int)
    (h : g.findRoot n1 = g.findRoot n2) :
    g.insertEdge n1 n2 w = (false, setWeight g n1 w) := by
  simp [DynamicGraph.insertEdge, h]

theorem insertEdge_eq_merge1 (g : DynamicGraph) {n1 n2 : Nat} (w : Int)
    (h : g.findRoot n1 ≠ g.findRoot n2)
    (hs : survivorIsFirst g (g.findRoot n1) (g.findRoot n2)) :
    g.insertEdge n1 n2 w = (true, attach (g.evert n2) n2 n1 w) := by
  simp [DynamicGraph.insertEdge, h, hs]

theorem insertEdge_eq_merge2 (g : DynamicGraph) {n1 n2 : Nat} (w : Int)
    (h : g.findRoot n1 ≠ g.findRoot n2)
    (hs : ¬ survivorIsFirst g (g.findRoot n1) (g.findRoot n2)) :
    g.insertEdge n1 n2 w = (true, attach (g.evert n1) n1 n2 w) := by
  simp [DynamicGraph.insertEdge, h, hs]

theorem removeEdgePair_eq_first (g : DynamicGraph) {n1 n2 : Nat}
    (h : (g.node n1).parent_ = some n2) :
    g.removeEdgePair n1 n2 = (1, detach g n1 n2) := by
  simp [DynamicGraph.removeEdgePair, h]

theorem removeEdgePair_eq_second (g : DynamicGraph) {n1 n2 : Nat}
    (h1 : ¬ (g.node n1).parent_ = some n2)
    (h2 : (g.node n2).parent_ = some n1) :
    g.removeEdgePair n1 n2 = (1, detach g n2 n1) := by
  simp [DynamicGraph.removeEdgePair, h1, h2]

theorem removeEdgePair_eq_none (g : DynamicGraph) {n1 n2 : Nat}
    (h1 : ¬ (g.node n1).parent_ = some n2)
    (h2 : ¬ (g.node n2).parent_ = some n1) :
    g.removeEdgePair n1 n2 = (0, g) := by
  simp [DynamicGraph.removeEdgePair, h1, h2]

theorem findRoot_setWeight (g : DynamicGraph) (j : Nat) (w : Int) (i : Nat) :
    (setWeight g j w).findRoot i = g.findRoot i := by
  unfold DynamicGraph.findRoot
  rw [setWeight, n_upd]
  exact findRootAux_congr fun y _ => parent_setWeight g j w y

theorem wf_setWeight (g : DynamicGraph) (wf : WF g) (j : Nat) (w : Int) :
    WF (setWeight g j w) := by
  refine ⟨fun i p hp => ?_, fun i => ?_⟩
  · rw [parent_setWeight] at hp
    rw [setWeight, n_upd]
    exact wf.bounded i p hp
  · rw [show (setWeight g j w).n = g.n from by rw [setWeight, n_upd]]
    exact reaches_congr (fun y _ => parent_setWeight g j w y) (wf.reaches i)

theorem treeEdge_setWeight (g : DynamicGraph) (j : Nat) (w : Int)
    (u v : Nat) : TreeEdge (setWeight g j w) u v ↔ TreeEdge g u v := by
  unfold TreeEdge
  rw [parent_setWeight, parent_setWeight]

/-- Merging the tree of b into the tree of a: well-formedness is kept, the
surviving root is the root of a, and the undirected tree edges gain exactly
the pair a-b. -/
theorem merge_side (g : DynamicGraph) (wf : WF g) {a b : Nat} (w : Int)
    (hd : g.findRoot a ≠ g.findRoot b) (ha : a < g.n) (hb : b < g.n) :
    WF (attach (g.evert b) b a w) ∧
      (attach (g.evert b) b a w).findRoot a = g.findRoot a ∧
      (attach (g.evert b) b a w).findRoot b = g.findRoot a ∧
      ∀ u v, TreeEdge (attach (g.evert b) b a w) u v ↔
        (TreeEdge g u v ∨ (u = b ∧ v = a) ∨ (u = a ∧ v = b)) := by
  have wf1 := wf_evert g wf b
  have hnone : ((g.evert b).node b).parent_ = none := parent_evert_self g wf b
  have hfrb : (g.evert b).findRoot b = b := findRoot_evert_self g wf b
  have hfra : (g.evert b).findRoot a = g.findRoot a :=
    findRoot_evert_other g wf hd
  have hdiff1 : (g.evert b).findRoot a ≠ b := by
    rw [hfra]
    intro hfab
    have hroot : g.findRoot b = g.findRoot a := by
      rw [← hfab]
      exact findRoot_findRoot g wf a
    exact hd hroot.symm
  have hb1 : b < (g.evert b).n := by rw [n_evert]; exact hb
  have ha1 : a < (g.evert b).n := by rw [n_evert]; exact ha
  refine ⟨wf_attach _ wf1 w hnone hb1 ha1 hdiff1, ?_, ?_, ?_⟩
  · rw [findRoot_attach_par _ w hnone hdiff1, hfra]
  · rw [findRoot_attach_child _ wf1 w hnone hb1 ha1 hdiff1, hfra]
  · intro u v
    rw [treeEdge_attach _ w hnone hb1 u v, treeEdge_evert g wf b u v]

theorem pairIn_cons {es : List (Nat × Nat)} {a b u v : Nat} :
    PairIn ((a, b) :: es) u v ↔
      (PairIn es u v ∨ (u = a ∧ v = b) ∨ (u = b ∧ v = a)) := by
  unfold PairIn
  simp only [List.mem_cons, Prod.mk.injEq]
  tauto

theorem pairIn_filter {es : List (Nat × Nat)} {a b u v : Nat} :
    PairIn (es.filter fun e => decide (e ≠ (a, b) ∧ e ≠ (b, a))) u v ↔
      (PairIn es u v ∧ ¬ (u = a ∧ v = b) ∧ ¬ (u = b ∧ v = a)) := by
  unfold PairIn
  simp only [List.mem_filter, decide_eq_true_eq, ne_eq, Prod.mk.injEq]
  tauto

theorem n_insertEdge_snd (g : DynamicGraph) (n1 n2 : Nat) (w : Int) :
    ((g.insertEdge n1 n2 w).2).n = g.n := by
  by_cases h : g.findRoot n1 = g.findRoot n2
  · rw [insertEdge_eq_same g w h]
    rw [setWeight, n_upd]
  · by_cases hs : survivorIsFirst g (g.findRoot n1) (g.findRoot n2)
    · rw [insertEdge_eq_merge1 g w h hs]
      rw [n_attach, n_evert]
    · rw [insertEdge_eq_merge2 g w h hs]
      rw [n_attach, n_evert]

theorem n_removeEdgePair_snd (g : DynamicGraph) (n1 n2 : Nat) :
    ((g.removeEdgePair n1 n2).2).n = g.n := by
  by_cases h1 : (g.node n1).parent_ = some n2
  · rw [removeEdgePair_eq_first g h1]
    exact n_detach g n1 n2
  · by_cases h2 : (g.node n2).parent_ = some n1
    · rw [removeEdgePair_eq_second g h1 h2]
      exact n_detach g n2 n1
    · rw [removeEdgePair_eq_none g h1 h2]

theorem n_stepOp (g : DynamicGraph) (op : DynOp) : (stepOp g op).n = g.n := by
  cases op with
  | ins a b w => exact n_insertEdge_snd g a b w
  | rmv a b => exact n_removeEdgePair_snd g a b

theorem stepOp_ins (g : DynamicGraph) (es : List (Nat × Nat)) (wf : WF g)
    {a b : Nat} (w : Int) (hd : g.findRoot a ≠ g.findRoot b) (ha : a < g.n)
    (hb : b < g.n) (hinv : ∀ u v, TreeEdge g u v ↔ PairIn es u v) :
    WF (stepOp g (.ins a b w)) ∧
      ∀ u v, TreeEdge (stepOp g (.ins a b w)) u v ↔
        PairIn (edgeStep es (.ins a b w)) u v := by
  by_cases hs : survivorIsFirst g (g.findRoot a) (g.findRoot b)
  · have hred : stepOp g (.ins a b w) = attach (g.evert b) b a w := by
      show (g.insertEdge a b w).2 = _
      rw [insertEdge_eq_merge1 g w hd hs]
    obtain ⟨hwf, _, _, hTE⟩ := merge_side g wf w hd ha hb
    rw [hred]
    refine ⟨hwf, fun u v => ?_⟩
    rw [hTE u v, show edgeStep es (.ins a b w) = (a, b) :: es from rfl,
      pairIn_cons, hinv u v]
    tauto
  · have hred : stepOp g (.ins a b w) = attach (g.evert a) a b w := by
      show (g.insertEdge a b w).2 = _
      rw [insertEdge_eq_merge2 g w hd hs]
    obtain ⟨hwf, _, _, hTE⟩ := merge_side g wf w (Ne.symm hd) hb ha
    rw [hred]
    refine ⟨hwf, fun u v => ?_⟩
    rw [hTE u v, show edgeStep es (.ins a b w) = (a, b) :: es from rfl,
      pairIn_cons, hinv u v]

theorem stepOp_rmv (g : DynamicGraph) (es : List (Nat × Nat)) (wf : WF g)
    {a b : Nat} (hinv : ∀ u v, TreeEdge g u v ↔ PairIn es u v) :
    WF (stepOp g (.rmv a b)) ∧
      ∀ u v, TreeEdge (stepOp g (.rmv a b)) u v ↔
        PairIn (edgeStep es (.rmv a b)) u v := by
  have hes : edgeStep es (.rmv a b) =
      es.filter fun e => decide (e ≠ (a, b) ∧ e ≠ (b, a)) := rfl
  by_cases h1 : (g.node a).parent_ = some b
  · have hred : stepOp g (.rmv a b) = detach g a b := by
      show (g.removeEdgePair a b).2 = _
      rw [removeEdgePair_eq_first g h1]
    rw [hred, hes]
    refine ⟨wf_detach g wf h1, fun u v => ?_⟩
    rw [treeEdge_detach g wf h1 u v, pairIn_filter, hinv u v]
  · by_cases h2 : (g.node b).parent_ = some a
    · have hred : stepOp g (.rmv a b) = detach g b a := by
        show (g.removeEdgePair a b).2 = _
        rw [removeEdgePair_eq_second g h1 h2]
      rw [hred, hes]
      refine ⟨wf_detach g wf h2, fun u v => ?_⟩
      rw [treeEdge_detach g wf h2 u v, pairIn_filter, hinv u v]
      tauto
    · have hred : stepOp g (.rmv a b) = g := by
        show (g.removeEdgePair a b).2 = _
        rw [removeEdgePair_eq_none g h1 h2]
      rw [hred, hes]
      refine ⟨wf, fun u v => ?_⟩
      have hnab : ¬ PairIn es a b := by
        rw [← hinv a b]
        intro hTE
        rcases hTE with h | h
        · exact h1 h
        · exact h2 h
      rw [pairIn_filter, hinv u v]
      unfold PairIn at hnab ⊢
      constructor
      · intro h
        refine ⟨h, fun hc => ?_, fun hc => ?_⟩
        · rw [hc.1, hc.2] at h
          exact hnab h
        · rw [hc.1, hc.2] at h
          rcases h with h | h
          · exact hnab (Or.inr h)
          · exact hnab (Or.inl h)
      · intro h
        exact h.1

theorem exec_inv :
    ∀ (ops : List DynOp) (g : DynamicGraph) (es : List (Nat × Nat)),
      WF g → (∀ u v, TreeEdge g u v ↔ PairIn es u v) →
      inBoundsB g.n ops = true → noChordB g ops = true →
      WF (execOps g ops) ∧
        ∀ u v, TreeEdge (execOps g ops) u v ↔
          PairIn (edgesAfter ops es) u v := by
  intro ops
  induction ops with
  | nil =>
    intro g es wf hinv _ _
    exact ⟨wf, hinv⟩
  | cons op ops ih =>
    intro g es wf hinv hbnd hnc
    have hstep : WF (stepOp g op) ∧
        ∀ u v, TreeEdge (stepOp g op) u v ↔ PairIn (edgeStep es op) u v := by
      cases op with
      | ins a b w =>
        rw [show inBoundsB g.n (DynOp.ins a b w :: ops) =
            (decide (a < g.n) && decide (b < g.n) && inBoundsB g.n ops)
            from rfl] at hbnd
        rw [Bool.and_eq_true, Bool.and_eq_true, decide_eq_true_eq,
          decide_eq_true_eq] at hbnd
        rw [show noChordB g (DynOp.ins a b w :: ops) =
            (decide (g.findRoot a ≠ g.findRoot b) &&
              noChordB (stepOp g (DynOp.ins a b w)) ops) from rfl] at hnc
        rw [Bool.and_eq_true, decide_eq_true_eq] at hnc
        exact stepOp_ins g es wf w hnc.1 hbnd.1.1 hbnd.1.2 hinv
      | rmv a b => exact stepOp_rmv g es wf hinv
    have hbnd2 : inBoundsB (stepOp g op).n ops = true := by
      rw [n_stepOp]
      cases op with
      | ins a b w =>
        rw [show inBoundsB g.n (DynOp.ins a b w :: ops) =
            (decide (a < g.n) && decide (b < g.n) && inBoundsB g.n ops)
            from rfl, Bool.and_eq_true] at hbnd
        exact hbnd.2
      | rmv a b =>
        rw [show inBoundsB g.n (DynOp.rmv a b :: ops) =
            (decide (a < g.n) && decide (b < g.n) && inBoundsB g.n ops)
            from rfl, Bool.and_eq_true] at hbnd
        exact hbnd.2
    have hnc2 : noChordB (stepOp g op) ops = true := by
      cases op with
      | ins a b w =>
        rw [show noChordB g (DynOp.ins a b w :: ops) =
            (decide (g.findRoot a ≠ g.findRoot b) &&
              noChordB (stepOp g (DynOp.ins a b w)) ops) from rfl,
          Bool.and_eq_true] at hnc
        exact hnc.2
      | rmv a b =>
        rw [show noChordB g (DynOp.rmv a b :: ops) =
            (true && noChordB (stepOp g (DynOp.rmv a b)) ops) from rfl,
          Bool.and_eq_true] at hnc
        exact hnc.2
    exact ih (stepOp g op) (edgeStep es op) hstep.1 hstep.2 hbnd2 hnc2

theorem rtg_congr {α : Type} {R S : α → α → Prop}
    (h : ∀ u v, R u v ↔ S u v) {i j : α} :
    Relation.ReflTransGen R i j ↔ Relation.ReflTransGen S i j :=
  ⟨Relation.ReflTransGen.mono fun u v => (h u v).mp,
    Relation.ReflTransGen.mono fun u v => (h u v).mpr⟩

theorem wf_initDG (nb : Nat) : WF (initDG nb) := by
  refine ⟨fun i p hp => ?_, fun i => ?_⟩
  · rw [node_initDG] at hp
    cases hp
  · have hnone : ((initDG nb).node i).parent_ = none := by
      rw [node_initDG]
      rfl
    unfold Reaches
    rw [findRootAux_root _ hnone]
    exact hnone

theorem treeEdge_initDG (nb : Nat) (u v : Nat) :
    ¬ TreeEdge (initDG nb) u v := by
  intro h
  rcases h with h | h
  · rw [node_initDG] at h
    cases h
  · rw [node_initDG] at h
    cases h

/-- Connectivity of the forest after a chord-free call sequence agrees with
the brute-force reference connectivity of the currently-inserted edges. -/
theorem execOps_connectivity (nb : Nat) (ops : List DynOp)
    (hbnd : inBoundsB nb ops = true)
    (hnc : noChordB (initDG nb) ops = true) (i j : Nat) :
    (execOps (initDG nb) ops).findRoot i =
        (execOps (initDG nb) ops).findRoot j ↔
      Connected (edgesAfter ops []) i j := by
  have hinit : ∀ u v, TreeEdge (initDG nb) u v ↔ PairIn [] u v := by
    intro u v
    simp [PairIn]
    exact treeEdge_initDG nb u v
  obtain ⟨hwf, hTE⟩ := exec_inv ops (initDG nb) [] (wf_initDG nb) hinit
    (by rw [n_initDG]; exact hbnd) hnc
  rw [findRoot_eq_iff_rtg _ hwf i j]
  exact rtg_congr hTE

/-! Lemmas about the minimum-weight walk. -/

theorem findMinWeightRootAux_fst (g : DynamicGraph) :
    ∀ (fuel i m : Nat),
      (findMinWeightRootAux g fuel i m).1 = findRootAux g fuel i := by
  intro fuel
  induction fuel with
  | zero => intro i m; rfl
  | succ fuel ih =>
    intro i m
    cases hp : (g.node i).parent_ with
    | none => simp [findMinWeightRootAux, findRootAux, hp]
    | some p => simp [findMinWeightRootAux, findRootAux, hp, ih]

theorem findMinWeightRootAux_mem (g : DynamicGraph) :
    ∀ (fuel i m : Nat),
      (findMinWeightRootAux g fuel i m).2 ∈ m :: pathToRootAux g fuel i := by
  intro fuel
  induction fuel with
  | zero =>
    intro i m
    simp [findMinWeightRootAux, pathToRootAux]
  | succ fuel ih =>
    intro i m
    cases hp : (g.node i).parent_ with
    | none => simp [findMinWeightRootAux, pathToRootAux, hp]
    | some p =>
      rw [pathToRootAux_parent g hp]
      have hred : findMinWeightRootAux g (fuel + 1) i m =
          findMinWeightRootAux g fuel p
            (if (g.node p).weight_ < (g.node m).weight_ then p else m) := by
        simp [findMinWeightRootAux, hp]
      rw [hred]
      by_cases hw : (g.node p).weight_ < (g.node m).weight_
      · rw [if_pos hw]
        rcases List.mem_cons.mp (ih p p) with heq | hmem
        · rw [heq]
          exact List.mem_cons_of_mem m (List.mem_cons_of_mem i
            (self_mem_pathToRootAux g fuel p))
        · exact List.mem_cons_of_mem m (List.mem_cons_of_mem i hmem)
      · rw [if_neg hw]
        rcases List.mem_cons.mp (ih p m) with heq | hmem
        · rw [heq]
          exact List.mem_cons_self m _
        · exact List.mem_cons_of_mem m (List.mem_cons_of_mem i hmem)

theorem findMinWeightRootAux_min (g : DynamicGraph) :
    ∀ (fuel i m : Nat),
      (g.node (findMinWeightRootAux g fuel i m).2).weight_ ≤
          (g.node m).weight_ ∧
        ∀ x ∈ pathToRootAux g fuel i, x = i ∨
          (g.node (findMinWeightRootAux g fuel i m).2).weight_ ≤
            (g.node x).weight_ := by
  intro fuel
  induction fuel with
  | zero =>
    intro i m
    refine ⟨le_refl _, fun x hx => ?_⟩
    simp [pathToRootAux] at hx
    exact Or.inl hx
  | succ fuel ih =>
    intro i m
    cases hp : (g.node i).parent_ with
    | none =>
      have hred : findMinWeightRootAux g (fuel + 1) i m = (i, m) := by
        simp [findMinWeightRootAux, hp]
      rw [hred, pathToRootAux_root g hp]
      refine ⟨le_refl _, fun x hx => ?_⟩
      simp at hx
      exact Or.inl hx
    | some p =>
      have hred : findMinWeightRootAux g (fuel + 1) i m =
          findMinWeightRootAux g fuel p
            (if (g.node p).weight_ < (g.node m).weight_ then p else m) := by
        simp [findMinWeightRootAux, hp]
      set m2 := if (g.node p).weight_ < (g.node m).weight_ then p else m
        with hm2
      obtain ⟨hle, hall⟩ := ih p m2
      have hm2m : (g.node m2).weight_ ≤ (g.node m).weight_ := by
        rw [hm2]
        by_cases hw : (g.node p).weight_ < (g.node m).weight_
        · rw [if_pos hw]
          exact le_of_lt hw
        · rw [if_neg hw]
      have hm2p : (g.node m2).weight_ ≤ (g.node p).weight_ := by
        rw [hm2]
        by_cases hw : (g.node p).weight_ < (g.node m).weight_
        · rw [if_pos hw]
        · rw [if_neg hw]
          exact le_of_not_lt hw
      rw [hred, pathToRootAux_parent g hp]
      refine ⟨le_trans hle hm2m, fun x hx => ?_⟩
      rcases List.mem_cons.mp hx with hxi | hxp
      · exact Or.inl hxi
      · rcases hall x hxp with hxp2 | hxle
        · exact Or.inr (by rw [hxp2]; exact le_trans hle hm2p)
        · exact Or.inr hxle

/-! Claim theorems. -/

/-- C1, counterexample: the claim that findRoot-equality always coincides
with reference connectivity fails as stated.  After the sequence
insert 0-1, insert 1-2, insert 0-2 (a chord, dropped by the forest),
remove 0-1, the reference edges 0-2 and 1-2 still connect nodes 0 and 1,
but the forest has cut its only tree path between them. -/
theorem C1_counterexample :
    ¬ ((execOps (initDG 3) cexOps).findRoot 0 =
          (execOps (initDG 3) cexOps).findRoot 1 ↔
        Connected (edgesAfter cexOps []) 0 1) := by
  intro h
  have hstep1 : PairIn (edgesAfter cexOps []) 0 2 := Or.inl (by decide)
  have hstep2 : PairIn (edgesAfter cexOps []) 2 1 := Or.inr (by decide)
  have hconn : Connected (edgesAfter cexOps []) 0 1 :=
    Relation.ReflTransGen.head hstep1 (Relation.ReflTransGen.single hstep2)
  exact absurd (h.mpr hconn) (by decide)

/-- C1, amended: for every in-bounds sequence of insertEdge/removeEdge
calls in which no insertEdge falls on an already-connected pair, two nodes
have the same findRoot result iff they are connected by a path of
currently-inserted edges (the brute-force reference). -/
theorem C1_forest_matches_reference (nb : Nat) (ops : List DynOp)
    (hbnd : inBoundsB nb ops = true)
    (hnc : noChordB (initDG nb) ops = true)
    (i j : Nat) (_hi : i < nb) (_hj : j < nb) :
    ((execOps (initDG nb) ops).findRoot i =
        (execOps (initDG nb) ops).findRoot j ↔
      Connected (edgesAfter ops []) i j) :=
  execOps_connectivity nb ops hbnd hnc i j

/-- C1, witness: the amended statement instantiated on a concrete
chord-free sequence. -/
theorem C1_forest_matches_reference_witness :
    inBoundsB 3 witOps = true ∧ noChordB (initDG 3) witOps = true ∧
      0 < 3 ∧ 1 < 3 ∧
      ((execOps (initDG 3) witOps).findRoot 0 =
          (execOps (initDG 3) witOps).findRoot 1 ↔
        Connected (edgesAfter witOps []) 0 1) :=
  ⟨by decide, by decide, by decide, by decide,
    C1_forest_matches_reference 3 witOps (by decide) (by decide) 0 1
      (by decide) (by decide)⟩

/-- C2: on two nodes in different trees, insertEdge returns true and the
surviving root (the new findRoot of both endpoints) is determined by the
spec's rule: the root with the larger childCount survives, ties broken in
favour of the root with the lower weight. -/
theorem C2_insertEdge_merge_root (g : DynamicGraph) (wf : WF g)
    (n1 n2 : Nat) (w : Int) (hd : g.findRoot n1 ≠ g.findRoot n2)
    (h1 : n1 < g.n) (h2 : n2 < g.n) :
    (g.insertEdge n1 n2 w).1 = true ∧
      (g.insertEdge n1 n2 w).2.findRoot n1 =
        (if survivorIsFirst g (g.findRoot n1) (g.findRoot n2)
          then g.findRoot n1 else g.findRoot n2) ∧
      (g.insertEdge n1 n2 w).2.findRoot n2 =
        (if survivorIsFirst g (g.findRoot n1) (g.findRoot n2)
          then g.findRoot n1 else g.findRoot n2) ∧
      ((g.node (g.findRoot n2)).nbChilds_ <
          (g.node (g.findRoot n1)).nbChilds_ →
        (if survivorIsFirst g (g.findRoot n1) (g.findRoot n2)
          then g.findRoot n1 else g.findRoot n2) = g.findRoot n1) ∧
      ((g.node (g.findRoot n1)).nbChilds_ <
          (g.node (g.findRoot n2)).nbChilds_ →
        (if survivorIsFirst g (g.findRoot n1) (g.findRoot n2)
          then g.findRoot n1 else g.findRoot n2) = g.findRoot n2) ∧
      ((g.node (g.findRoot n1)).nbChilds_ =
          (g.node (g.findRoot n2)).nbChilds_ →
        (g.node (g.findRoot n1)).weight_ < (g.node (g.findRoot n2)).weight_ →
        (if survivorIsFirst g (g.findRoot n1) (g.findRoot n2)
          then g.findRoot n1 else g.findRoot n2) = g.findRoot n1) ∧
      ((g.node (g.findRoot n1)).nbChilds_ =
          (g.node (g.findRoot n2)).nbChilds_ →
        (g.node (g.findRoot n2)).weight_ < (g.node (g.findRoot n1)).weight_ →
        (if survivorIsFirst g (g.findRoot n1) (g.findRoot n2)
          then g.findRoot n1 else g.findRoot n2) = g.findRoot n2) := by
  have hrule1 : (g.node (g.findRoot n2)).nbChilds_ <
      (g.node (g.findRoot n1)).nbChilds_ →
      (if survivorIsFirst g (g.findRoot n1) (g.findRoot n2)
        then g.findRoot n1 else g.findRoot n2) = g.findRoot n1 :=
    fun h => if_pos (Or.inl h)
  have hrule2 : (g.node (g.findRoot n1)).nbChilds_ <
      (g.node (g.findRoot n2)).nbChilds_ →
      (if survivorIsFirst g (g.findRoot n1) (g.findRoot n2)
        then g.findRoot n1 else g.findRoot n2) = g.findRoot n2 := by
    intro h
    refine if_neg ?_
    rintro (hlt | ⟨heq, _⟩)
    · omega
    · omega
  have hrule3 : (g.node (g.findRoot n1)).nbChilds_ =
      (g.node (g.findRoot n2)).nbChilds_ →
      (g.node (g.findRoot n1)).weight_ < (g.node (g.findRoot n2)).weight_ →
      (if survivorIsFirst g (g.findRoot n1) (g.findRoot n2)
        then g.findRoot n1 else g.findRoot n2) = g.findRoot n1 :=
    fun he hw => if_pos (Or.inr ⟨he, hw⟩)
  have hrule4 : (g.node (g.findRoot n1)).nbChilds_ =
      (g.node (g.findRoot n2)).nbChilds_ →
      (g.node (g.findRoot n2)).weight_ < (g.node (g.findRoot n1)).weight_ →
      (if survivorIsFirst g (g.findRoot n1) (g.findRoot n2)
        then g.findRoot n1 else g.findRoot n2) = g.findRoot n2 := by
    intro he hw
    refine if_neg ?_
    rintro (hlt | ⟨_, hw2⟩)
    · omega
    · exact absurd (lt_trans hw hw2) (lt_irrefl _)
  by_cases hs : survivorIsFirst g (g.findRoot n1) (g.findRoot n2)
  · obtain ⟨_, hfr1, hfr2, _⟩ := merge_side g wf w hd h1 h2
    rw [insertEdge_eq_merge1 g w hd hs, if_pos hs]
    exact ⟨rfl, hfr1, hfr2, fun _ => rfl, fun h => hrule2 h ▸ (if_pos hs).symm
      ▸ rfl, fun _ _ => rfl, fun he hw => by
        have := hrule4 he hw
        rw [if_pos hs] at this
        exact this⟩
  · obtain ⟨_, hfr2, hfr1, _⟩ := merge_side g wf w (Ne.symm hd) h2 h1
    rw [insertEdge_eq_merge2 g w hd hs, if_neg hs]
    refine ⟨rfl, hfr1, hfr2, fun h => ?_, fun _ => rfl, fun he hw => ?_,
      fun _ _ => rfl⟩
    · have := hrule1 h
      rw [if_neg hs] at this
      exact this
    · have := hrule3 he hw
      rw [if_neg hs] at this
      exact this

/-- C2, witness: merging the tree of node 4 (root 3) into the tree of
node 2 (root 0) in the concrete five-node forest. -/
theorem C2_insertEdge_merge_root_witness :
    wfCheck fiveNodeG = true ∧
      fiveNodeG.findRoot 2 ≠ fiveNodeG.findRoot 4 ∧
      2 < fiveNodeG.n ∧ 4 < fiveNodeG.n ∧
      ((fiveNodeG.insertEdge 2 4 9).1 = true ∧
        (fiveNodeG.insertEdge 2 4 9).2.findRoot 2 =
          (if survivorIsFirst fiveNodeG (fiveNodeG.findRoot 2)
              (fiveNodeG.findRoot 4)
            then fiveNodeG.findRoot 2 else fiveNodeG.findRoot 4) ∧
        (fiveNodeG.insertEdge 2 4 9).2.findRoot 4 =
          (if survivorIsFirst fiveNodeG (fiveNodeG.findRoot 2)
              (fiveNodeG.findRoot 4)
            then fiveNodeG.findRoot 2 else fiveNodeG.findRoot 4) ∧
        ((fiveNodeG.node (fiveNodeG.findRoot 4)).nbChilds_ <
            (fiveNodeG.node (fiveNodeG.findRoot 2)).nbChilds_ →
          (if survivorIsFirst fiveNodeG (fiveNodeG.findRoot 2)
              (fiveNodeG.findRoot 4)
            then fiveNodeG.findRoot 2 else fiveNodeG.findRoot 4) =
            fiveNodeG.findRoot 2) ∧
        ((fiveNodeG.node (fiveNodeG.findRoot 2)).nbChilds_ <
            (fiveNodeG.node (fiveNodeG.findRoot 4)).nbChilds_ →
          (if survivorIsFirst fiveNodeG (fiveNodeG.findRoot 2)
              (fiveNodeG.findRoot 4)
            then fiveNodeG.findRoot 2 else fiveNodeG.findRoot 4) =
            fiveNodeG.findRoot 4) ∧
        ((fiveNodeG.node (fiveNodeG.findRoot 2)).nbChilds_ =
            (fiveNodeG.node (fiveNodeG.findRoot 4)).nbChilds_ →
          (fiveNodeG.node (fiveNodeG.findRoot 2)).weight_ <
            (fiveNodeG.node (fiveNodeG.findRoot 4)).weight_ →
          (if survivorIsFirst fiveNodeG (fiveNodeG.findRoot 2)
              (fiveNodeG.findRoot 4)
            then fiveNodeG.findRoot 2 else fiveNodeG.findRoot 4) =
            fiveNodeG.findRoot 2) ∧
        ((fiveNodeG.node (fiveNodeG.findRoot 2)).nbChilds_ =
            (fiveNodeG.node (fiveNodeG.findRoot 4)).nbChilds_ →
          (fiveNodeG.node (fiveNodeG.findRoot 4)).weight_ <
            (fiveNodeG.node (fiveNodeG.findRoot 2)).weight_ →
          (if survivorIsFirst fiveNodeG (fiveNodeG.findRoot 2)
              (fiveNodeG.findRoot 4)
            then fiveNodeG.findRoot 2 else fiveNodeG.findRoot 4) =
            fiveNodeG.findRoot 4)) :=
  ⟨by decide, by decide, by decide, by decide,
    C2_insertEdge_merge_root fiveNodeG (wf_of_check fiveNodeG (by decide))
      2 4 9 (by decide) (by decide) (by decide)⟩

/-- C3: insertEdge on two nodes already in the same tree returns false and
leaves the findRoot result of every node unchanged (only the intra-tree
weight is recorded). -/
theorem C3_insertEdge_intra (g : DynamicGraph) (n1 n2 : Nat) (w : Int)
    (h : g.findRoot n1 = g.findRoot n2) :
    (g.insertEdge n1 n2 w).1 = false ∧
      ∀ i, (g.insertEdge n1 n2 w).2.findRoot i = g.findRoot i := by
  rw [insertEdge_eq_same g w h]
  exact ⟨rfl, fun i => findRoot_setWeight g n1 w i⟩

/-- C3, witness: an intra-tree insertion between nodes 0 and 2 of the
concrete five-node forest. -/
theorem C3_insertEdge_intra_witness :
    fiveNodeG.findRoot 0 = fiveNodeG.findRoot 2 ∧
      ((fiveNodeG.insertEdge 0 2 7).1 = false ∧
        ∀ i, (fiveNodeG.insertEdge 0 2 7).2.findRoot i =
          fiveNodeG.findRoot i) :=
  ⟨by decide, C3_insertEdge_intra fiveNodeG 0 2 7 (by decide)⟩

/-- C4: immediately after evert(n), findRoot(n) = n; evert reverses the
parent-pointer path from n to its former root (each consecutive pair of the
old path now points backwards), touches no node off that path, and
redistributes childCount along the path: the new root n gains one child,
the old root loses one, all other nodes keep their count. -/
theorem C4_evert_root (g : DynamicGraph) (wf : WF g) (n : Nat) :
    (g.evert n).findRoot n = n ∧
      List.Chain' (fun u v => ((g.evert n).node v).parent_ = some u)
        (g.pathToRoot n) ∧
      (∀ j, j ∉ g.pathToRoot n → (g.evert n).node j = g.node j) ∧
      ((g.node n).parent_ ≠ none →
        ((g.evert n).node n).nbChilds_ = (g.node n).nbChilds_ + 1 ∧
        ((g.evert n).node ((g.pathToRoot n).getLastD n)).nbChilds_ =
          (g.node ((g.pathToRoot n).getLastD n)).nbChilds_ - 1 ∧
        ∀ x, x ≠ n → x ≠ (g.pathToRoot n).getLastD n →
          ((g.evert n).node x).nbChilds_ = (g.node x).nbChilds_) := by
  refine ⟨findRoot_evert_self g wf n, chain_evert g wf n,
    fun j hj => node_evert_notMem g hj, fun hne => ?_⟩
  cases hp : (g.node n).parent_ with
  | none => exact absurd hp hne
  | some p => exact nbChilds_evert g wf hp

/-- C4, witness: everting the deepest node of the three-node chain in the
concrete five-node forest. -/
theorem C4_evert_root_witness :
    wfCheck fiveNodeG = true ∧
      ((fiveNodeG.evert 2).findRoot 2 = 2 ∧
        List.Chain' (fun u v => ((fiveNodeG.evert 2).node v).parent_ = some u)
          (fiveNodeG.pathToRoot 2) ∧
        (∀ j, j ∉ fiveNodeG.pathToRoot 2 →
          (fiveNodeG.evert 2).node j = fiveNodeG.node j) ∧
        ((fiveNodeG.node 2).parent_ ≠ none →
          ((fiveNodeG.evert 2).node 2).nbChilds_ =
            (fiveNodeG.node 2).nbChilds_ + 1 ∧
          ((fiveNodeG.evert 2).node
              ((fiveNodeG.pathToRoot 2).getLastD 2)).nbChilds_ =
            (fiveNodeG.node
              ((fiveNodeG.pathToRoot 2).getLastD 2)).nbChilds_ - 1 ∧
          ∀ x, x ≠ 2 → x ≠ (fiveNodeG.pathToRoot 2).getLastD 2 →
            ((fiveNodeG.evert 2).node x).nbChilds_ =
              (fiveNodeG.node x).nbChilds_)) :=
  ⟨by decide, C4_evert_root fiveNodeG (wf_of_check fiveNodeG (by decide)) 2⟩

/-- C5: findMinWeightRoot(n) returns the pair (findRoot n, m) where m lies
on the exact parent-pointer path from n to that root and carries a weight
less than or equal to the weight of every node on that path. -/
theorem C5_findMinWeightRoot_spec (g : DynamicGraph) (_wf : WF g) (n : Nat) :
    (g.findMinWeightRoot n).1 = g.findRoot n ∧
      (g.findMinWeightRoot n).2 ∈ g.pathToRoot n ∧
      ∀ x ∈ g.pathToRoot n,
        (g.node (g.findMinWeightRoot n).2).weight_ ≤ (g.node x).weight_ := by
  refine ⟨findMinWeightRootAux_fst g g.n n n, ?_, ?_⟩
  · rcases List.mem_cons.mp (findMinWeightRootAux_mem g g.n n n) with
      heq | hmem
    · rw [show (g.findMinWeightRoot n).2 =
        (findMinWeightRootAux g g.n n n).2 from rfl, heq]
      exact self_mem_pathToRootAux g g.n n
    · exact hmem
  · intro x hx
    obtain ⟨hlem, hall⟩ := findMinWeightRootAux_min g g.n n n
    rcases hall x hx with hxi | hle
    · rw [hxi]
      exact hlem
    · exact hle

/-- C5, witness: the minimum-weight walk from node 2 of the concrete
five-node forest (path 2, 1, 0 with weights 2, 5, 0). -/
theorem C5_findMinWeightRoot_spec_witness :
    wfCheck fiveNodeG = true ∧
      ((fiveNodeG.findMinWeightRoot 2).1 = fiveNodeG.findRoot 2 ∧
        (fiveNodeG.findMinWeightRoot 2).2 ∈ fiveNodeG.pathToRoot 2 ∧
        ∀ x ∈ fiveNodeG.pathToRoot 2,
          (fiveNodeG.node (fiveNodeG.findMinWeightRoot 2).2).weight_ ≤
            (fiveNodeG.node x).weight_) :=
  ⟨by decide, C5_findMinWeightRoot_spec fiveNodeG
    (wf_of_check fiveNodeG (by decide)) 2⟩

/-- C6: removeEdge(n1, n2) on a pair that is not in a direct parent-child
relation returns 0 and leaves the whole forest state literally unchanged;
whenever its result is not 0 the pair was a direct parent-child pair, and
on a direct parent-child pair it returns 1 and the tree edge is gone. -/
theorem C6_removeEdge_pair (g : DynamicGraph) (wf : WF g) (n1 n2 : Nat) :
    ((g.node n1).parent_ ≠ some n2 → (g.node n2).parent_ ≠ some n1 →
      g.removeEdgePair n1 n2 = (0, g)) ∧
      ((g.removeEdgePair n1 n2).1 ≠ 0 → TreeEdge g n1 n2) ∧
      (TreeEdge g n1 n2 → (g.removeEdgePair n1 n2).1 = 1 ∧
        ¬ TreeEdge (g.removeEdgePair n1 n2).2 n1 n2) := by
  refine ⟨fun h1 h2 => removeEdgePair_eq_none g h1 h2, fun hne => ?_,
    fun hTE => ?_⟩
  · by_cases h1 : (g.node n1).parent_ = some n2
    · exact Or.inl h1
    · by_cases h2 : (g.node n2).parent_ = some n1
      · exact Or.inr h2
      · rw [removeEdgePair_eq_none g h1 h2] at hne
        exact absurd rfl hne
  · by_cases h1 : (g.node n1).parent_ = some n2
    · rw [removeEdgePair_eq_first g h1]
      refine ⟨rfl, fun hTE2 => ?_⟩
      rw [treeEdge_detach g wf h1 n1 n2] at hTE2
      exact hTE2.2.1 ⟨rfl, rfl⟩
    · have h2 : (g.node n2).parent_ = some n1 := by
        rcases hTE with h | h
        · exact absurd h h1
        · exact h
      rw [removeEdgePair_eq_second g h1 h2]
      refine ⟨rfl, fun hTE2 => ?_⟩
      have hTE3 : TreeEdge (detach g n2 n1) n2 n1 := treeEdge_symm hTE2
      rw [treeEdge_detach g wf h2 n2 n1] at hTE3
      exact hTE3.2.1 ⟨rfl, rfl⟩

/-- C6, witness: the non-adjacent pair 0, 4 and the adjacent pair 2, 1 of
the concrete five-node forest. -/
theorem C6_removeEdge_pair_witness :
    wfCheck fiveNodeG = true ∧
      (((fiveNodeG.node 0).parent_ ≠ some 4 →
        (fiveNodeG.node 4).parent_ ≠ some 0 →
        fiveNodeG.removeEdgePair 0 4 = (0, fiveNodeG)) ∧
      ((fiveNodeG.removeEdgePair 0 4).1 ≠ 0 → TreeEdge fiveNodeG 0 4) ∧
      (TreeEdge fiveNodeG 0 4 → (fiveNodeG.removeEdgePair 0 4).1 = 1 ∧
        ¬ TreeEdge (fiveNodeG.removeEdgePair 0 4).2 0 4)) :=
  ⟨by decide, C6_removeEdge_pair fiveNodeG
    (wf_of_check fiveNodeG (by decide)) 0 4⟩

/-- C7: the code cannot report a negative status for a build on an
unprepared mesh: setupTriangulation returns 0 on every path, even for a
null triangulation, and build() is declared void, so no status reaches the
caller at all.  This theorem evaluates the embedded setupTriangulation at
the failing input. -/
theorem C7_setupTriangulation_returns_zero :
    (setupTriangulation ⟨none⟩ none).1 = 0 ∧
      ∀ (s : FTRGraphState) (t : Option TriangulationState),
        (setupTriangulation s t).1 = 0 := by
  refine ⟨rfl, fun s t => ?_⟩
  cases t with
  | none => rfl
  | some tri => rfl

/-- C9: the copy assignment of DynGraphNode copies parent_, weight_ and
nbChilds_ and never writes corArc_, so the target keeps its previous arc
id; the copy constructor delegates to it, leaving the new node's corArc_
at its indeterminate initial contents rather than copying the source's. -/
theorem C9_copy_keeps_corArc :
    ∀ (target source uninit : DynGraphNode),
      (DynGraphNode.copyAssign target source).parent_ = source.parent_ ∧
      (DynGraphNode.copyAssign target source).weight_ = source.weight_ ∧
      (DynGraphNode.copyAssign target source).nbChilds_ = source.nbChilds_ ∧
      (DynGraphNode.copyAssign target source).corArc_ = target.corArc_ ∧
      (DynGraphNode.copyConstruct uninit source).parent_ = source.parent_ ∧
      (DynGraphNode.copyConstruct uninit source).weight_ = source.weight_ ∧
      (DynGraphNode.copyConstruct uninit source).nbChilds_ =
        source.nbChilds_ ∧
      (DynGraphNode.copyConstruct uninit source).corArc_ = uninit.corArc_ :=
  fun _ _ _ => ⟨rfl, rfl, rfl, rfl, rfl, rfl, rfl, rfl⟩

/-- C10: isDisconnected returns true exactly when the node has no parent
pointer; in particular it reports the root of the concrete two-node tree
as disconnected even though that root has a child. -/
theorem C10_isDisconnected_iff :
    (∀ (g : DynamicGraph) (nid : Nat),
        g.isDisconnected nid = true ↔ (g.node nid).parent_ = none) ∧
      twoNodeG.isDisconnected 0 = true ∧
      (twoNodeG.node 1).parent_ = some 0 := by
  refine ⟨fun g nid => ?_, by decide, by decide⟩
  unfold DynamicGraph.isDisconnected DynGraphNode.hasParent
  cases h : (g.node nid).parent_ with
  | none => simp [h]
  | some p => simp [h]

end ftr
end ttk
